import Mathlib

/-!
Shallow embedding of the cluster health-check program
(`pkg/health-check/cmd.go`) and proofs about its dependency-graph engine.

The embedding models:
* `expandDependencies` / `getAllUpstreamDependencies` / `dfs` — transitive
  dependency closure of the hand-written operator dependency map;
* `TopologicalSort` — Kahn's algorithm over the restricted operator set;
* the stage-2 evaluation loop of `Options.Run` (lines 171-220) — the
  cascading pass / fail / skip classification of each operator;
* `tcAppend` — JUnit test-case construction with failure taking priority
  over skip;
* the machine-list check of `checkMachineNodeConsistency` (case 1);
* the report file-name construction of `Options.Run` (lines 230-237).

Go maps are modelled as association lists (`flookup` is Go map indexing,
which yields the zero value for missing keys), Go's `int` as `Int`, Go sets
(`map[string]bool`) as lists with membership, and loops as folds or
explicit recursion.  `sort.Strings` is modelled by `sortStrings`, an
insertion sort under the lexicographic order on the characters' code
points (operator names are ASCII, where this agrees with Go's byte-wise
string order).  The recursions of `dfs` and of Kahn's main loop are given
explicit fuel; the fuel supplied by the callers (`deps.length + 1`,
`2 * operators.length + 1`) exceeds the number of iterations either loop
can make on duplicate-free input, so the fuel-exhaustion branches are
unreachable there (the `none` answer of `kahnLoop` is mapped to the same
cycle error the Go code produces for an incomplete sort).
-/

namespace HealthCheck

/-- Lexicographic comparison of character lists by code point. -/
def lexLeChars : List Char → List Char → Bool
  | [], _ => true
  | _ :: _, [] => false
  | x :: xs, y :: ys =>
    if x.toNat < y.toNat then true
    else if y.toNat < x.toNat then false
    else lexLeChars xs ys

/-- Lexicographic string order used to model Go's `sort.Strings`. -/
def strLe (a b : String) : Bool := lexLeChars a.data b.data

/-- `strLe` as a proposition. -/
def SLe (a b : String) : Prop := strLe a b = true

instance : DecidableRel SLe := fun a b => inferInstanceAs (Decidable (strLe a b = true))

/-- Model of Go's `sort.Strings`. -/
def sortStrings (l : List String) : List String := List.insertionSort SLe l

/-- A Go `map[string]V` as an association list; `flookup` is map indexing. -/
abbrev DepMap := List (String × List String)

def flookup {α : Type} : List (String × α) → String → Option α
  | [], _ => none
  | (k, v) :: rest, key => if key = k then some v else flookup rest key

/-- Go's `dependencies[op]`: indexing a `map[string][]string`, returning
the zero value (empty list) for a missing key. -/
def lookupDeps (m : DepMap) (op : String) : List String :=
  (flookup m op).getD []

def keysOf (m : DepMap) : List String := m.map Prod.fst

def valuesOf (m : DepMap) : List String := m.flatMap Prod.snd

/-- The hand-written dependency map `operatorDependencies` of `cmd.go`. -/
def operatorDependencies : DepMap :=
  [ ("etcd", []),
    ("network", ["etcd"]),
    ("kube-apiserver", ["etcd", "network"]),
    ("kube-controller-manager", ["kube-apiserver"]),
    ("kube-scheduler", ["kube-apiserver"]),
    ("service-ca", ["kube-apiserver"]),
    ("cloud-credential", ["network"]),
    ("dns", ["kube-apiserver"]),
    ("openshift-apiserver", ["kube-apiserver"]),
    ("openshift-controller-manager", ["openshift-apiserver", "kube-apiserver"]),
    ("cloud-controller-manager", ["kube-apiserver", "cloud-credential"]),
    ("machine-api", ["cloud-controller-manager", "cloud-credential", "kube-apiserver"]),
    ("machine-config", ["kube-apiserver", "openshift-apiserver", "machine-api"]),
    ("ingress", ["network", "machine-api", "cloud-credential", "dns"]),
    ("storage", ["cloud-credential", "machine-api"]),
    ("image-registry", ["ingress", "cloud-credential"]),
    ("authentication", ["ingress"]),
    ("console", ["authentication", "ingress"]),
    ("monitoring", ["storage"]) ]

/-- The recursive `dfs` of `cmd.go`: mark `current` visited; if it is a
key of the map, walk its direct dependencies, adding each to the result
set before recursing into it.  The fuel argument bounds the recursion
depth; each recursion level marks a previously unvisited key, so
`(number of keys) + 1` fuel is always sufficient. -/
def dfs (m : DepMap) : Nat → String → List String × List String → List String × List String
  | 0, _, vr => vr
  | fuel + 1, current, (visited, result) =>
    if current ∈ visited then (visited, result)
    else
      match flookup m current with
      | none => (current :: visited, result)
      | some ds =>
        ds.foldl
          (fun vr d =>
            let r' := if d ∈ vr.2 then vr.2 else d :: vr.2
            dfs m fuel d (vr.1, r'))
          (current :: visited, result)

/-- `getAllUpstreamDependencies`: DFS from `op` with fresh visited and
result sets, then the result set sorted (Go: `sort.Strings`). -/
def getAllUpstreamDependencies (op : String) (deps : DepMap) : List String :=
  sortStrings (dfs deps (deps.length + 1) op ([], [])).2

/-- `expandDependencies`: the domain is every name occurring as a key or
as a dependency value; keys get their transitive closure, pure leaves get
an empty list. -/
def expandDependencies (manualDeps : DepMap) : DepMap :=
  let coreSet : List String := (keysOf manualDeps ++ valuesOf manualDeps).dedup
  coreSet.map fun op =>
    (op, if (flookup manualDeps op).isSome then getAllUpstreamDependencies op manualDeps else [])

/-- Expanded dependency list of one operator. -/
def expandedDeps (manualDeps : DepMap) (op : String) : List String :=
  lookupDeps (expandDependencies manualDeps) op

/-- Point increment of an in-degree map (Go: `inDegree[op]++`). -/
def incAt (acc : String → Int) (op : String) : String → Int :=
  fun x => if x = op then acc x + 1 else acc x

/-- Point decrement of an in-degree map (Go: `inDegree[op]--`). -/
def decAt (deg : String → Int) (op : String) : String → Int :=
  fun x => if x = op then deg x - 1 else deg x

/-- Inner loop of the in-degree initialisation of `TopologicalSort`:
`for _, dep := range dependencies[op] { if stringInSlice(dep, operators) { inDegree[op]++ } }`. -/
def bumpDeg (operators : List String) (op : String) : List String → (String → Int) → (String → Int)
  | [], acc => acc
  | dep :: ds, acc =>
      bumpDeg operators op ds (if dep ∈ operators then incAt acc op else acc)

/-- Outer loop of the in-degree initialisation of `TopologicalSort`. -/
def initInDegreeAux (operators : List String) (dependencies : DepMap) :
    List String → (String → Int) → (String → Int)
  | [], acc => acc
  | op :: rest, acc =>
      initInDegreeAux operators dependencies rest
        (bumpDeg operators op (lookupDeps dependencies op) acc)

def initInDegree (operators : List String) (dependencies : DepMap) : String → Int :=
  initInDegreeAux operators dependencies operators (fun _ => 0)

/-- One decrement pass of Kahn's algorithm, after `node` is popped:
every operator that lists `node` as a dependency has its in-degree
decremented, and is enqueued when the decremented degree is zero. -/
def kahnPass (dependencies : DepMap) (node : String) :
    List String → (String → Int) → List String → (String → Int) × List String
  | [], deg, enq => (deg, enq)
  | op :: rest, deg, enq =>
    if node ∈ lookupDeps dependencies op then
      if decAt deg op op = 0 then kahnPass dependencies node rest (decAt deg op) (enq ++ [op])
      else kahnPass dependencies node rest (decAt deg op) enq
    else kahnPass dependencies node rest deg enq

/-- Main loop of `TopologicalSort`: pop the queue front, append it to the
output, run the decrement pass. `none` means the fuel ran out with a
nonempty queue (unreachable for the fuel supplied by `topologicalSort`
on duplicate-free input). -/
def kahnLoop (operators : List String) (dependencies : DepMap) :
    Nat → List String → (String → Int) → List String → Option (List String)
  | 0, queue, _, sorted =>
    match queue with
    | [] => some sorted
    | _ :: _ => none
  | fuel + 1, queue, deg, sorted =>
    match queue with
    | [] => some sorted
    | node :: rest =>
      let p := kahnPass dependencies node operators deg []
      kahnLoop operators dependencies fuel (rest ++ p.2) p.1 (sorted ++ [node])

/-- `TopologicalSort` of `cmd.go`: initialise in-degrees, seed the queue
with the zero in-degree operators in their list order, run Kahn's loop,
and report a cycle when the output is shorter than the input. -/
def topologicalSort (operators : List String) (dependencies : DepMap) :
    Except String (List String) :=
  let inDeg := initInDegree operators dependencies
  let queue := operators.filter (fun op => decide (inDeg op = 0))
  match kahnLoop operators dependencies (2 * operators.length + 1) queue inDeg [] with
  | none => Except.error "dependency graph has a cycle"
  | some sorted =>
      if sorted.length = operators.length then Except.ok sorted
      else Except.error "dependency graph has a cycle"

/-! ### Cluster operator records and the JUnit test-case model -/

/-- One entry of an operator's `status.conditions`. -/
structure CondRec where
  ctype : String
  status : String
deriving DecidableEq

/-- A cluster-operator record: just its conditions (all the evaluator
reads).  A condition missing from the live object is modelled by its
absence from the list; `objx`'s nil-map lookup then yields `""`, exactly
as in the Go code. -/
structure OperatorRecord where
  conditions : List CondRec
deriving DecidableEq

/-- `condition(op, t).Get("status").String()`: status of the first
condition of type `t`, or `""` when there is none. -/
def condStatus (op : OperatorRecord) (t : String) : String :=
  match op.conditions.find? (fun c => c.ctype == t) with
  | some c => c.status
  | none => ""

inductive Outcome where
  | passed : Outcome
  | failed (msg : String) : Outcome
  | skipped (msg : String) : Outcome
deriving DecidableEq

structure TestCase where
  name : String
  outcome : Outcome
deriving DecidableEq

/-- The test case built by `tcAppend`: a nonempty failure message wins,
then a nonempty skip message, otherwise the case passed. -/
def tcMake (name failureMsg skipMsg : String) : TestCase :=
  if failureMsg ≠ "" then ⟨name, Outcome.failed failureMsg⟩
  else if skipMsg ≠ "" then ⟨name, Outcome.skipped skipMsg⟩
  else ⟨name, Outcome.passed⟩

/-! ### Stage 2: the cascading evaluator -/

def tcNamePrefix : String := "operator conditions "

def notFoundMsg (opName : String) : String :=
  "Operator \x22" ++ opName ++ "\x22 not found in the cluster, skipping"

def preconMsg (dep : String) : String :=
  "Precondition operator \x22" ++ dep ++ "\x22 failed, skipping"

def condFailMsg (opName a d p : String) : String :=
  "Operator \x22" ++ opName ++ "\x22 - Available=" ++ a ++ ", Degraded=" ++ d ++
    ", Progressing=" ++ p

/-- One iteration of the stage-2 loop of `Options.Run` for one entry of
`finalOperators`: not-found skip, dependency skip (first failed
dependency in list order), exact-condition pass, or failure (which adds
the operator to `failedOperators`). -/
def evalOperator (finalDeps : DepMap) (failed : List String)
    (item : String × Option OperatorRecord) : TestCase × List String :=
  let opName := item.1
  let tcName := tcNamePrefix ++ opName
  match item.2 with
  | none => (tcMake tcName "" (notFoundMsg opName), failed)
  | some op =>
    match (lookupDeps finalDeps opName).find? (fun d => decide (d ∈ failed)) with
    | some dep => (tcMake tcName "" (preconMsg dep), failed)
    | none =>
      let available := condStatus op "Available"
      let degraded := condStatus op "Degraded"
      let progressing := condStatus op "Progressing"
      if available = "True" ∧ degraded = "False" ∧ progressing = "False" then
        (tcMake tcName "" "", failed)
      else
        (tcMake tcName (condFailMsg opName available degraded progressing) "", opName :: failed)

/-- The whole stage-2 loop: thread the failure set through the operator
list, collecting one test case per operator. -/
def evalOperators (finalDeps : DepMap) :
    List (String × Option OperatorRecord) → List String → List TestCase × List String
  | [], failed => ([], failed)
  | item :: rest, failed =>
    let r := evalOperator finalDeps failed item
    let rec' := evalOperators finalDeps rest r.2
    (r.1 :: rec'.1, rec'.2)

/-- The sorted key list of the expanded map (`coreOperators` in the Go
code, collected from the map and sorted with `sort.Strings`). -/
def coreOps (manualDeps : DepMap) : List String :=
  sortStrings (keysOf (expandDependencies manualDeps))

/-- `finalOperators`: the topologically sorted core operators, each
paired with its cluster record when present, followed by the cluster
operators that are not core ("extra" operators; the Go code appends them
in map-iteration order, modelled here by their list order). -/
def runItems (cluster : List (String × OperatorRecord)) (sortedCore : List String) :
    List (String × Option OperatorRecord) :=
  sortedCore.map (fun n => (n, flookup cluster n)) ++
    (cluster.filter (fun p => decide (p.1 ∉ sortedCore))).map (fun p => (p.1, some p.2))

/-- The operator-checking stage of `Options.Run` (lines 106-220):
expand the dependency map, topologically sort the core operators, then
run the cascading evaluator.  A sort error aborts the run with no
per-operator test case (`none`); otherwise the result is the emitted
test cases together with the final `failedOperators` set. -/
def runOperatorChecks (manualDeps : DepMap) (cluster : List (String × OperatorRecord)) :
    Option (List TestCase × List String) :=
  let finalDeps := expandDependencies manualDeps
  match topologicalSort (coreOps manualDeps) finalDeps with
  | Except.error _ => none
  | Except.ok sortedCore =>
      some (evalOperators finalDeps (runItems cluster sortedCore) [])

/-- The test case the run emitted for operator `opName` (test-case names
are `"operator conditions " ++ opName` and unique for duplicate-free
cluster keys). -/
def tcFor (tcs : List TestCase) (opName : String) : Option TestCase :=
  tcs.find? (fun tc => tc.name == tcNamePrefix ++ opName)

/-! ### Report file name (lines 230-237 of `cmd.go`) -/

/-- The persisted report's file name as built by `Options.Run`:
`timeSuffix` already starts with an underscore, and the format string
`"%s_%s.xml"` inserts another one. -/
def reportFileName (timestamp : String) : String :=
  let filePrefix := "cluster-health-check"
  let timeSuffix := "_" ++ timestamp
  filePrefix ++ "_" ++ timeSuffix ++ ".xml"

/-! ### Machine-list check (case 1 of `checkMachineNodeConsistency`) -/

structure MachineRec where
  name : String
  phase : String
deriving DecidableEq

def machinesTCName : String := "all machines should be in Running state"

def noMachinesMsg : String :=
  "No Machines found or could not retrieve list. Skipping Machine check."

def machineListErrMsg (e : String) : String :=
  "Could not list machines: " ++ e ++ ". The Machine API might not be available."

def notRunningMachineMsg (m : MachineRec) : String :=
  "Machine \x22" ++ m.name ++ "\x22 is in \x22" ++ m.phase ++ "\x22 state"

/-- Case 1 of `checkMachineNodeConsistency`: on a list error a failed
test case is appended and the function continues with a nil machine
list, which then takes the empty-list (skip) branch. -/
def machineCase1TCs (res : Except String (List MachineRec)) : List TestCase :=
  let errTCs : List TestCase :=
    match res with
    | Except.error e => [tcMake machinesTCName (machineListErrMsg e) ""]
    | Except.ok _ => []
  let machineList : Option (List MachineRec) :=
    match res with
    | Except.error _ => none
    | Except.ok l => some l
  let mainTC : List TestCase :=
    match machineList with
    | some ms =>
      if 0 < ms.length then
        let notRunningMsgs :=
          (ms.filter (fun m => decide (¬ m.phase.toLower = "running"))).map notRunningMachineMsg
        if notRunningMsgs.length = 0 then [tcMake machinesTCName "" ""]
        else
          [tcMake machinesTCName
            ("Found " ++ toString notRunningMsgs.length ++ " out of " ++ toString ms.length ++
              " Machines not in Running state: " ++ String.intercalate " " notRunningMsgs) ""]
      else [tcMake machinesTCName "" noMachinesMsg]
    | none => [tcMake machinesTCName "" noMachinesMsg]
  errTCs ++ mainTC

/-! ## String helpers -/

theorem string_ext {a b : String} (h : a.data = b.data) : a = b := by
  cases a
  cases b
  exact congrArg String.mk h

theorem string_append_left_cancel {s a b : String} (h : s ++ a = s ++ b) : a = b := by
  apply string_ext
  have hd : s.data ++ a.data = s.data ++ b.data := by
    rw [← String.data_append, ← String.data_append, h]
  exact List.append_cancel_left hd

theorem append_ne_empty (s t : String) (h : 0 < s.length) : s ++ t ≠ "" := by
  intro he
  have hl := congrArg String.length he
  rw [String.length_append] at hl
  have h0 : String.length "" = 0 := rfl
  rw [h0] at hl
  omega

theorem length_append_left_pos (s t : String) (h : 0 < s.length) : 0 < (s ++ t).length := by
  rw [String.length_append]
  omega

theorem append_head_char (s t : String) (c : Char) (h : s.data.head? = some c) :
    (s ++ t).data.head? = some c := by
  rw [String.data_append]
  cases hs : s.data with
  | nil => rw [hs] at h; simp at h
  | cons x xs => rw [hs] at h; simp at h; simp [h]

/-! ## The lexicographic order `SLe` -/

theorem lexLeChars_refl (l : List Char) : lexLeChars l l = true := by
  induction l with
  | nil => rfl
  | cons x xs ih => simp [lexLeChars, ih]

theorem sle_refl (a : String) : SLe a a := lexLeChars_refl a.data

theorem lexLeChars_total (a b : List Char) : lexLeChars a b = true ∨ lexLeChars b a = true := by
  induction a generalizing b with
  | nil => left; rfl
  | cons x xs ih =>
    cases b with
    | nil => right; rfl
    | cons y ys =>
      rcases Nat.lt_trichotomy x.toNat y.toNat with hlt | heq | hgt
      · left; simp [lexLeChars, hlt]
      · have h1 : ¬ x.toNat < y.toNat := by omega
        have h2 : ¬ y.toNat < x.toNat := by omega
        rcases ih ys with h | h
        · left; simp [lexLeChars, h1, h2, h]
        · right; simp [lexLeChars, h1, h2, h]
      · right; simp [lexLeChars, hgt]

theorem lexLeChars_trans {a b c : List Char} (hab : lexLeChars a b = true)
    (hbc : lexLeChars b c = true) : lexLeChars a c = true := by
  induction a generalizing b c with
  | nil => rfl
  | cons x xs ih =>
    cases b with
    | nil => simp [lexLeChars] at hab
    | cons y ys =>
      cases c with
      | nil => simp [lexLeChars] at hbc
      | cons z zs =>
        simp only [lexLeChars] at hab hbc ⊢
        by_cases hxy : x.toNat < y.toNat
        · by_cases hyz : y.toNat < z.toNat
          · have : x.toNat < z.toNat := by omega
            simp [this]
          · simp [hxy] at hab
            by_cases hzy : z.toNat < y.toNat
            · simp [hyz, hzy] at hbc
            · have : x.toNat < z.toNat := by omega
              simp [this]
        · by_cases hyx : y.toNat < x.toNat
          · simp [hxy, hyx] at hab
          · have hxyeq : x.toNat = y.toNat := by omega
            by_cases hyz : y.toNat < z.toNat
            · have : x.toNat < z.toNat := by omega
              simp [this]
            · by_cases hzy : z.toNat < y.toNat
              · simp [hyz, hzy] at hbc
              · have h1 : ¬ x.toNat < z.toNat := by omega
                have h2 : ¬ z.toNat < x.toNat := by omega
                simp [hxy, hyx] at hab
                simp [hyz, hzy] at hbc
                simp [h1, h2]
                exact ih hab hbc

instance : IsTotal String SLe := ⟨fun a b => lexLeChars_total a.data b.data⟩

instance : IsTrans String SLe := ⟨fun _ _ _ hab hbc => lexLeChars_trans hab hbc⟩

theorem sortStrings_sorted (l : List String) : List.Sorted SLe (sortStrings l) :=
  List.sorted_insertionSort SLe l

theorem sortStrings_perm (l : List String) : (sortStrings l).Perm l :=
  List.perm_insertionSort SLe l

theorem mem_sortStrings {l : List String} {x : String} : x ∈ sortStrings l ↔ x ∈ l :=
  (sortStrings_perm l).mem_iff

theorem sortStrings_nodup {l : List String} (h : l.Nodup) : (sortStrings l).Nodup :=
  ((sortStrings_perm l).nodup_iff).mpr h

/-- In a `SLe`-sorted list, `find?` returns a minimal element among those
satisfying the predicate. -/
theorem find_min_of_sorted {l : List String} {p : String → Bool} {d : String}
    (hs : List.Sorted SLe l) (hf : l.find? p = some d) :
    ∀ x ∈ l, p x = true → SLe d x := by
  induction l with
  | nil => simp at hf
  | cons h t ih =>
    rw [List.sorted_cons] at hs
    intro x hx hpx
    by_cases hph : p h = true
    · rw [List.find?_cons_of_pos _ hph] at hf
      injection hf with hf
      subst hf
      rcases List.mem_cons.mp hx with rfl | hx
      · exact sle_refl _
      · exact hs.1 x hx
    · rw [List.find?_cons_of_neg _ hph] at hf
      rcases List.mem_cons.mp hx with rfl | hx
      · exact absurd hpx hph
      · exact ih hs.2 hf x hx hpx

/-! ## `flookup` basics -/

theorem flookup_eq_none {α : Type} {m : List (String × α)} {k : String} :
    flookup m k = none ↔ k ∉ m.map Prod.fst := by
  induction m with
  | nil => simp [flookup]
  | cons p rest ih =>
    obtain ⟨a, v⟩ := p
    by_cases hk : k = a
    · subst hk
      simp [flookup]
    · simp [flookup, hk, ih]

theorem flookup_isSome {α : Type} {m : List (String × α)} {k : String} :
    (flookup m k).isSome = true ↔ k ∈ m.map Prod.fst := by
  constructor
  · intro h
    by_contra hk
    rw [flookup_eq_none.mpr hk] at h
    simp at h
  · intro h
    rcases hs : flookup m k with _ | v
    · exact absurd h (flookup_eq_none.mp hs)
    · simp

theorem flookup_mem {α : Type} {m : List (String × α)} {k : String} {v : α}
    (h : flookup m k = some v) : (k, v) ∈ m := by
  induction m with
  | nil => simp [flookup] at h
  | cons p rest ih =>
    obtain ⟨a, w⟩ := p
    by_cases hk : k = a
    · subst hk
      simp [flookup] at h
      simp [h]
    · simp [flookup, hk] at h
      simp [ih h]

theorem lookupDeps_sub_values {m : DepMap} {op d : String}
    (h : d ∈ lookupDeps m op) : d ∈ valuesOf m := by
  unfold lookupDeps at h
  rcases hf : flookup m op with _ | l
  · rw [hf] at h; simp at h
  · rw [hf] at h
    simp at h
    have hmem := flookup_mem hf
    unfold valuesOf
    rw [List.mem_flatMap]
    exact ⟨(op, l), hmem, h⟩

theorem lookupDeps_key {m : DepMap} {op d : String}
    (h : d ∈ lookupDeps m op) : op ∈ keysOf m := by
  unfold lookupDeps at h
  rcases hf : flookup m op with _ | l
  · rw [hf] at h; simp at h
  · have : (flookup m op).isSome = true := by simp [hf]
    exact flookup_isSome.mp this

theorem flookup_map_fn {l : List String} {g : String → List String} {k : String} :
    flookup (l.map fun op => (op, g op)) k = if k ∈ l then some (g k) else none := by
  induction l with
  | nil => simp [flookup]
  | cons a t ih =>
    by_cases hk : k = a
    · subst hk
      simp [flookup]
    · simp [flookup, hk, ih, Ne.symm hk]

/-! ## DFS specification -/

/-- Invariant of the DFS visited/result sets: every visited node outside
the exception set `E` has all its direct dependencies recorded in the
result set and visited. -/
def InvS (m : DepMap) (E v r : List String) : Prop :=
  ∀ x ∈ v, x ∉ E → ∀ d ∈ lookupDeps m x, d ∈ r ∧ d ∈ v

/-- Number of map keys not yet visited; the DFS recursion measure. -/
def freshKeys (m : DepMap) (v : List String) : Nat :=
  ((keysOf m).filter (fun k => decide (k ∉ v))).length

theorem filter_not_mem_len_mono (ks v w : List String) (hvw : ∀ x ∈ v, x ∈ w) :
    ((ks.filter fun k => decide (k ∉ w)).length) ≤ ((ks.filter fun k => decide (k ∉ v)).length) := by
  induction ks with
  | nil => exact Nat.le_refl _
  | cons a t ih =>
    rw [List.filter_cons, List.filter_cons]
    by_cases haw : a ∈ w
    · have h1 : (decide (a ∉ w)) = false := by simp [haw]
      rw [h1, if_neg (fun h => Bool.false_ne_true h)]
      by_cases hav : a ∈ v
      · have h2 : (decide (a ∉ v)) = false := by simp [hav]
        rw [h2, if_neg (fun h => Bool.false_ne_true h)]
        exact ih
      · have h2 : (decide (a ∉ v)) = true := by simp [hav]
        rw [h2, if_pos rfl, List.length_cons]
        exact Nat.le_succ_of_le ih
    · have hav : a ∉ v := fun hv => haw (hvw a hv)
      have h1 : (decide (a ∉ w)) = true := by simp [haw]
      have h2 : (decide (a ∉ v)) = true := by simp [hav]
      rw [h1, h2, if_pos rfl, if_pos rfl, List.length_cons, List.length_cons]
      exact Nat.succ_le_succ ih

theorem filter_not_mem_len_strict (ks v : List String) (c : String)
    (hck : c ∈ ks) (hcv : c ∉ v) :
    ((ks.filter fun k => decide (k ∉ (c :: v))).length) < ((ks.filter fun k => decide (k ∉ v)).length) := by
  induction ks with
  | nil => simp at hck
  | cons a t ih =>
    rw [List.filter_cons, List.filter_cons]
    by_cases hac : a = c
    · subst hac
      have h1 : (decide (a ∉ (a :: v))) = false := by simp
      have h2 : (decide (a ∉ v)) = true := by simp [hcv]
      rw [h1, if_neg (fun h => Bool.false_ne_true h), h2, if_pos rfl, List.length_cons]
      have hle := filter_not_mem_len_mono t v (a :: v) (fun x hx => List.mem_cons_of_mem a hx)
      omega
    · have hct : c ∈ t := by
        rcases List.mem_cons.mp hck with h | h
        · exact absurd h.symm hac
        · exact h
      by_cases hav : a ∈ v
      · have h1 : (decide (a ∉ (c :: v))) = false := by simp [List.mem_cons_of_mem c hav]
        have h2 : (decide (a ∉ v)) = false := by simp [hav]
        rw [h1, if_neg (fun h => Bool.false_ne_true h), h2, if_neg (fun h => Bool.false_ne_true h)]
        exact ih hct
      · have h1 : (decide (a ∉ (c :: v))) = true := by
          have : a ∉ c :: v := by
            intro h
            rcases List.mem_cons.mp h with h | h
            · exact hac h
            · exact hav h
          simp [this]
        have h2 : (decide (a ∉ v)) = true := by simp [hav]
        rw [h1, h2, if_pos rfl, if_pos rfl, List.length_cons, List.length_cons]
        exact Nat.succ_lt_succ (ih hct)

theorem freshKeys_mono (m : DepMap) {v w : List String} (hvw : ∀ x ∈ v, x ∈ w) :
    freshKeys m w ≤ freshKeys m v :=
  filter_not_mem_len_mono (keysOf m) v w hvw

theorem freshKeys_strict (m : DepMap) {v : List String} {c : String}
    (hck : c ∈ keysOf m) (hcv : c ∉ v) :
    freshKeys m (c :: v) < freshKeys m v :=
  filter_not_mem_len_strict (keysOf m) v c hck hcv

theorem mem_values_of_pair {m : DepMap} {k d : String} {l : List String}
    (hm : (k, l) ∈ m) (hd : d ∈ l) : d ∈ valuesOf m := by
  unfold valuesOf
  rw [List.mem_flatMap]
  exact ⟨(k, l), hm, hd⟩

/-- Specification of one `dfs` child-processing fold, given the
specification of `dfs` at the child fuel level. -/
theorem dfs_children_spec (m : DepMap) (fuel : Nat) (E : List String) (current : String)
    (IH : ∀ (E' : List String) (c : String) (v r : List String),
      InvS m E' v r → freshKeys m v < fuel →
      (∀ x ∈ v, x ∈ (dfs m fuel c (v, r)).1) ∧
      (∀ x ∈ r, x ∈ (dfs m fuel c (v, r)).2) ∧
      c ∈ (dfs m fuel c (v, r)).1 ∧
      InvS m E' (dfs m fuel c (v, r)).1 (dfs m fuel c (v, r)).2 ∧
      (∀ x ∈ (dfs m fuel c (v, r)).2, x ∈ r ∨ x ∈ valuesOf m) ∧
      (r.Nodup → (dfs m fuel c (v, r)).2.Nodup)) :
    ∀ (ds v r : List String),
      current ∈ v →
      InvS m (current :: E) v r →
      freshKeys m v < fuel →
      (∀ d ∈ ds, d ∈ valuesOf m) →
      (∀ x ∈ v, x ∈ (ds.foldl
          (fun vr d =>
            let r' := if d ∈ vr.2 then vr.2 else d :: vr.2
            dfs m fuel d (vr.1, r')) (v, r)).1) ∧
      (∀ x ∈ r, x ∈ (ds.foldl
          (fun vr d =>
            let r' := if d ∈ vr.2 then vr.2 else d :: vr.2
            dfs m fuel d (vr.1, r')) (v, r)).2) ∧
      InvS m (current :: E)
        (ds.foldl (fun vr d =>
            let r' := if d ∈ vr.2 then vr.2 else d :: vr.2
            dfs m fuel d (vr.1, r')) (v, r)).1
        (ds.foldl (fun vr d =>
            let r' := if d ∈ vr.2 then vr.2 else d :: vr.2
            dfs m fuel d (vr.1, r')) (v, r)).2 ∧
      (∀ d ∈ ds, d ∈ (ds.foldl
          (fun vr d =>
            let r' := if d ∈ vr.2 then vr.2 else d :: vr.2
            dfs m fuel d (vr.1, r')) (v, r)).2 ∧
        d ∈ (ds.foldl
          (fun vr d =>
            let r' := if d ∈ vr.2 then vr.2 else d :: vr.2
            dfs m fuel d (vr.1, r')) (v, r)).1) ∧
      (∀ x ∈ (ds.foldl
          (fun vr d =>
            let r' := if d ∈ vr.2 then vr.2 else d :: vr.2
            dfs m fuel d (vr.1, r')) (v, r)).2, x ∈ r ∨ x ∈ valuesOf m) ∧
      (r.Nodup → (ds.foldl
          (fun vr d =>
            let r' := if d ∈ vr.2 then vr.2 else d :: vr.2
            dfs m fuel d (vr.1, r')) (v, r)).2.Nodup) := by
  intro ds
  induction ds with
  | nil =>
    intro v r hcv hInv hb hvals
    refine ⟨fun x hx => hx, fun x hx => hx, hInv, by simp, fun x hx => Or.inl hx, fun h => h⟩
  | cons d ds ih =>
    intro v r hcv hInv hb hvals
    have hsubr' : ∀ x ∈ r, x ∈ (if d ∈ r then r else d :: r) := by
      intro x hx
      by_cases hdr : d ∈ r
      · simpa [hdr] using hx
      · simp [hdr, hx]
    have hInv' : InvS m (current :: E) v (if d ∈ r then r else d :: r) := by
      intro x hx hxE d' hd'
      obtain ⟨h1, h2⟩ := hInv x hx hxE d' hd'
      exact ⟨hsubr' d' h1, h2⟩
    obtain ⟨p1, p2, p3, p4, p5, p6⟩ :=
      IH (current :: E) d v (if d ∈ r then r else d :: r) hInv' hb
    have hcvp : current ∈ (dfs m fuel d (v, if d ∈ r then r else d :: r)).1 := p1 current hcv
    have hbp : freshKeys m (dfs m fuel d (v, if d ∈ r then r else d :: r)).1 < fuel :=
      lt_of_le_of_lt (freshKeys_mono m p1) hb
    obtain ⟨q1, q2, q3, q4, q5, q6⟩ :=
      ih (dfs m fuel d (v, if d ∈ r then r else d :: r)).1
        (dfs m fuel d (v, if d ∈ r then r else d :: r)).2
        hcvp p4 hbp (fun d' hd' => hvals d' (List.mem_cons_of_mem d hd'))
    have hfold : ((d :: ds).foldl
        (fun vr d =>
          let r' := if d ∈ vr.2 then vr.2 else d :: vr.2
          dfs m fuel d (vr.1, r')) (v, r))
      = (ds.foldl
        (fun vr d =>
          let r' := if d ∈ vr.2 then vr.2 else d :: vr.2
          dfs m fuel d (vr.1, r')) (dfs m fuel d (v, if d ∈ r then r else d :: r))) := by
      simp [List.foldl_cons]
    rw [hfold]
    have hdr' : d ∈ (if d ∈ r then r else d :: r) := by
      by_cases hdr : d ∈ r
      · simp [hdr]
      · simp [hdr]
    refine ⟨?_, ?_, ?_, ?_, ?_, ?_⟩
    · intro x hx
      exact q1 _ (p1 x hx)
    · intro x hx
      exact q2 _ (p2 x (hsubr' x hx))
    · exact q3
    · intro d' hd'
      rcases List.mem_cons.mp hd' with rfl | hd'
      · exact ⟨q2 _ (p2 d' hdr'), q1 _ (p3)⟩
      · exact q4 d' hd'
    · intro x hx
      rcases q5 x hx with hx2 | hx2
      · rcases p5 x hx2 with hx3 | hx3
        · by_cases hdr : d ∈ r
          · rw [if_pos hdr] at hx3
            exact Or.inl hx3
          · rw [if_neg hdr] at hx3
            rcases List.mem_cons.mp hx3 with rfl | hx4
            · exact Or.inr (hvals x (List.mem_cons_self _ _))
            · exact Or.inl hx4
        · exact Or.inr hx3
      · exact Or.inr hx2
    · intro hr
      apply q6
      apply p6
      by_cases hdr : d ∈ r
      · simp [hdr, hr]
      · simp [hdr, hr]

/-- Full specification of `dfs`: with sufficient fuel it preserves and
re-establishes the invariant, visits its start node, only adds dependency
values to the result set, and preserves freedom from duplicates. -/
theorem dfs_spec (m : DepMap) : ∀ (fuel : Nat) (E : List String) (current : String)
    (v r : List String),
    InvS m E v r →
    freshKeys m v < fuel →
    (∀ x ∈ v, x ∈ (dfs m fuel current (v, r)).1) ∧
    (∀ x ∈ r, x ∈ (dfs m fuel current (v, r)).2) ∧
    current ∈ (dfs m fuel current (v, r)).1 ∧
    InvS m E (dfs m fuel current (v, r)).1 (dfs m fuel current (v, r)).2 ∧
    (∀ x ∈ (dfs m fuel current (v, r)).2, x ∈ r ∨ x ∈ valuesOf m) ∧
    (r.Nodup → (dfs m fuel current (v, r)).2.Nodup) := by
  intro fuel
  induction fuel with
  | zero =>
    intro E current v r _ hb
    exact absurd hb (Nat.not_lt_zero _)
  | succ fuel ih =>
    intro E current v r hInv hb
    by_cases hcv : current ∈ v
    · simp only [dfs, if_pos hcv]
      exact ⟨fun x hx => hx, fun x hx => hx, hcv, hInv, fun x hx => Or.inl hx, fun h => h⟩
    · rcases hl : flookup m current with _ | ds
      · simp only [dfs, if_neg hcv, hl]
        have hdeps : lookupDeps m current = [] := by simp [lookupDeps, hl]
        refine ⟨fun x hx => List.mem_cons_of_mem _ hx, fun x hx => hx,
          List.mem_cons_self _ _, ?_, fun x hx => Or.inl hx, fun h => h⟩
        intro x hx hxE d hd
        rcases List.mem_cons.mp hx with rfl | hx
        · rw [hdeps] at hd
          simp at hd
        · obtain ⟨h1, h2⟩ := hInv x hx hxE d hd
          exact ⟨h1, List.mem_cons_of_mem _ h2⟩
      · have hck : current ∈ keysOf m :=
          flookup_isSome.mp (by simp [hl])
        have hb' : freshKeys m (current :: v) < fuel :=
          lt_of_lt_of_le (freshKeys_strict m hck hcv) (Nat.lt_succ_iff.mp hb)
        have hInv' : InvS m (current :: E) (current :: v) r := by
          intro x hx hxE d hd
          rcases List.mem_cons.mp hx with rfl | hx
          · exact absurd (List.mem_cons_self x E) hxE
          · have hxE' : x ∉ E := fun h => hxE (List.mem_cons_of_mem _ h)
            obtain ⟨h1, h2⟩ := hInv x hx hxE' d hd
            exact ⟨h1, List.mem_cons_of_mem _ h2⟩
        have hvals : ∀ d ∈ ds, d ∈ valuesOf m :=
          fun d hd => mem_values_of_pair (flookup_mem hl) hd
        obtain ⟨c1, c2, c3, c4, c5, c6⟩ :=
          dfs_children_spec m fuel E current ih ds (current :: v) r
            (List.mem_cons_self _ _) hInv' hb' hvals
        have hdeps : lookupDeps m current = ds := by simp [lookupDeps, hl]
        simp only [dfs, if_neg hcv, hl]
        refine ⟨fun x hx => c1 x (List.mem_cons_of_mem _ hx), c2,
          c1 current (List.mem_cons_self _ _), ?_, c5, c6⟩
        intro x hx hxE d hd
        by_cases hxc : x = current
        · subst hxc
          rw [hdeps] at hd
          exact c4 d hd
        · have hxE' : x ∉ current :: E := by
            intro h
            rcases List.mem_cons.mp h with h | h
            · exact hxc h
            · exact hxE h
          exact c3 x hx hxE' d hd

/-! ## Transitive closure correctness -/

/-- Direct dependency step: `depStep m x y` holds when `x` directly
depends on `y` in the map `m`. -/
def depStep (m : DepMap) (x y : String) : Prop := y ∈ lookupDeps m x

theorem getAllUpstream_complete (m : DepMap) (a b : String)
    (h : Relation.TransGen (depStep m) a b) : b ∈ getAllUpstreamDependencies a m := by
  have hInv : InvS m [] [] [] := by
    intro x hx
    simp at hx
  have hfb : freshKeys m [] < m.length + 1 := by
    unfold freshKeys
    have hlen := List.length_filter_le (fun k => decide (k ∉ ([] : List String))) (keysOf m)
    unfold keysOf at hlen ⊢
    rw [List.length_map] at hlen
    omega
  obtain ⟨_, _, s3, s4, _, _⟩ := dfs_spec m (m.length + 1) [] a [] [] hInv hfb
  have key : ∀ y, Relation.TransGen (depStep m) a y →
      y ∈ (dfs m (m.length + 1) a ([], [])).2 ∧ y ∈ (dfs m (m.length + 1) a ([], [])).1 := by
    intro y hy
    induction hy with
    | single hstep => exact s4 a s3 (by simp) _ hstep
    | tail _ hstep ihy => exact s4 _ ihy.2 (by simp) _ hstep
  unfold getAllUpstreamDependencies
  rw [mem_sortStrings]
  exact (key b h).1

theorem getAllUpstream_sub_values (m : DepMap) (a x : String)
    (hx : x ∈ getAllUpstreamDependencies a m) : x ∈ valuesOf m := by
  unfold getAllUpstreamDependencies at hx
  rw [mem_sortStrings] at hx
  have hInv : InvS m [] [] [] := by
    intro x hx
    simp at hx
  have hfb : freshKeys m [] < m.length + 1 := by
    unfold freshKeys
    have hlen := List.length_filter_le (fun k => decide (k ∉ ([] : List String))) (keysOf m)
    unfold keysOf at hlen ⊢
    rw [List.length_map] at hlen
    omega
  obtain ⟨_, _, _, _, s5, _⟩ := dfs_spec m (m.length + 1) [] a [] [] hInv hfb
  rcases s5 x hx with h | h
  · simp at h
  · exact h

theorem getAllUpstream_nodup (m : DepMap) (a : String) :
    (getAllUpstreamDependencies a m).Nodup := by
  unfold getAllUpstreamDependencies
  apply sortStrings_nodup
  have hInv : InvS m [] [] [] := by
    intro x hx
    simp at hx
  have hfb : freshKeys m [] < m.length + 1 := by
    unfold freshKeys
    have hlen := List.length_filter_le (fun k => decide (k ∉ ([] : List String))) (keysOf m)
    unfold keysOf at hlen ⊢
    rw [List.length_map] at hlen
    omega
  obtain ⟨_, _, _, _, _, s6⟩ := dfs_spec m (m.length + 1) [] a [] [] hInv hfb
  exact s6 List.nodup_nil

theorem getAllUpstream_sorted (m : DepMap) (a : String) :
    List.Sorted SLe (getAllUpstreamDependencies a m) :=
  sortStrings_sorted _

/-! ## `expandDependencies` lemmas -/

theorem expand_keys (md : DepMap) :
    keysOf (expandDependencies md) = (keysOf md ++ valuesOf md).dedup := by
  unfold expandDependencies keysOf
  rw [List.map_map]
  rw [show (Prod.fst ∘ fun op =>
      (op, if (flookup md op).isSome = true then getAllUpstreamDependencies op md else []))
      = id from rfl]
  rw [List.map_id]

theorem mem_expand_keys {md : DepMap} {x : String} :
    x ∈ keysOf (expandDependencies md) ↔ x ∈ keysOf md ∨ x ∈ valuesOf md := by
  rw [expand_keys, List.mem_dedup, List.mem_append]

theorem expand_keys_nodup (md : DepMap) : (keysOf (expandDependencies md)).Nodup := by
  rw [expand_keys]
  exact List.nodup_dedup _

theorem flookup_expand (md : DepMap) (op : String) :
    flookup (expandDependencies md) op =
      if op ∈ (keysOf md ++ valuesOf md).dedup then
        some (if (flookup md op).isSome then getAllUpstreamDependencies op md else [])
      else none := by
  unfold expandDependencies
  exact flookup_map_fn

theorem expandedDeps_eq_key (md : DepMap) (op : String) (hop : op ∈ keysOf md) :
    expandedDeps md op = getAllUpstreamDependencies op md := by
  unfold expandedDeps lookupDeps
  rw [flookup_expand]
  have h1 : op ∈ (keysOf md ++ valuesOf md).dedup := by
    rw [List.mem_dedup, List.mem_append]
    exact Or.inl hop
  have h2 : (flookup md op).isSome = true := flookup_isSome.mpr hop
  rw [if_pos h1, if_pos h2]
  rfl

theorem expandedDeps_leaf (md : DepMap) (op : String) (hop : op ∉ keysOf md) :
    expandedDeps md op = [] := by
  unfold expandedDeps lookupDeps
  rw [flookup_expand]
  by_cases h1 : op ∈ (keysOf md ++ valuesOf md).dedup
  · rw [if_pos h1]
    have h2 : flookup md op = none := flookup_eq_none.mpr hop
    rw [h2]
    rfl
  · rw [if_neg h1]
    rfl

theorem expandedDeps_nodup (md : DepMap) (op : String) : (expandedDeps md op).Nodup := by
  by_cases hop : op ∈ keysOf md
  · rw [expandedDeps_eq_key md op hop]
    exact getAllUpstream_nodup md op
  · rw [expandedDeps_leaf md op hop]
    exact List.nodup_nil

theorem expandedDeps_sorted (md : DepMap) (op : String) :
    List.Sorted SLe (expandedDeps md op) := by
  by_cases hop : op ∈ keysOf md
  · rw [expandedDeps_eq_key md op hop]
    exact getAllUpstream_sorted md op
  · rw [expandedDeps_leaf md op hop]
    exact List.sorted_nil

theorem expandedDeps_sub_values (md : DepMap) {op d : String}
    (h : d ∈ expandedDeps md op) : d ∈ valuesOf md := by
  by_cases hop : op ∈ keysOf md
  · rw [expandedDeps_eq_key md op hop] at h
    exact getAllUpstream_sub_values md op d h
  · rw [expandedDeps_leaf md op hop] at h
    simp at h

theorem transGen_key (md : DepMap) {a b : String}
    (h : Relation.TransGen (depStep md) a b) : a ∈ keysOf md := by
  induction h with
  | single hstep => exact lookupDeps_key hstep
  | tail _ _ ih => exact ih

theorem transGen_values (md : DepMap) {a b : String}
    (h : Relation.TransGen (depStep md) a b) : b ∈ valuesOf md := by
  induction h with
  | single hstep => exact lookupDeps_sub_values hstep
  | tail _ hstep _ => exact lookupDeps_sub_values hstep

theorem expandedDeps_complete (md : DepMap) {a b : String}
    (h : Relation.TransGen (depStep md) a b) : b ∈ expandedDeps md a := by
  rw [expandedDeps_eq_key md a (transGen_key md h)]
  exact getAllUpstream_complete md a b h

/-! ## In-degree initialisation characterisation -/

theorem incAt_self (acc : String → Int) (op : String) : incAt acc op op = acc op + 1 := by
  simp [incAt]

theorem incAt_ne (acc : String → Int) (op x : String) (hx : x ≠ op) : incAt acc op x = acc x := by
  simp [incAt, hx]

theorem decAt_self (deg : String → Int) (op : String) : decAt deg op op = deg op - 1 := by
  simp [decAt]

theorem decAt_ne (deg : String → Int) (op x : String) (hx : x ≠ op) : decAt deg op x = deg x := by
  simp [decAt, hx]

theorem bumpDeg_ne (ops : List String) (op : String) :
    ∀ (ds : List String) (acc : String → Int) (x : String), x ≠ op →
    bumpDeg ops op ds acc x = acc x := by
  intro ds
  induction ds with
  | nil => intro acc x _; rfl
  | cons d ds ih =>
    intro acc x hx
    unfold bumpDeg
    rw [ih _ x hx]
    by_cases hd : d ∈ ops
    · rw [if_pos hd, incAt_ne _ _ _ hx]
    · rw [if_neg hd]

theorem bumpDeg_self (ops : List String) (op : String) :
    ∀ (ds : List String) (acc : String → Int),
    bumpDeg ops op ds acc op = acc op + ((ds.countP fun d => decide (d ∈ ops)) : Int) := by
  intro ds
  induction ds with
  | nil => intro acc; simp [bumpDeg]
  | cons d ds ih =>
    intro acc
    unfold bumpDeg
    rw [ih, List.countP_cons]
    by_cases hd : d ∈ ops
    · have h1 : (decide (d ∈ ops)) = true := by simp [hd]
      rw [if_pos hd, incAt_self, h1]
      simp
      omega
    · have h1 : (decide (d ∈ ops)) = false := by simp [hd]
      rw [if_neg hd, h1]
      simp

theorem initAux_ne (ops : List String) (deps : DepMap) :
    ∀ (l : List String) (acc : String → Int) (x : String), x ∉ l →
    initInDegreeAux ops deps l acc x = acc x := by
  intro l
  induction l with
  | nil => intro acc x _; rfl
  | cons op rest ih =>
    intro acc x hx
    have hxop : x ≠ op := fun h => hx (h ▸ List.mem_cons_self _ _)
    have hxr : x ∉ rest := fun h => hx (List.mem_cons_of_mem _ h)
    unfold initInDegreeAux
    rw [ih _ x hxr, bumpDeg_ne ops op _ acc x hxop]

theorem initAux_mem (ops : List String) (deps : DepMap) :
    ∀ (l : List String) (acc : String → Int) (x : String), l.Nodup → x ∈ l →
    initInDegreeAux ops deps l acc x
      = acc x + (((lookupDeps deps x).countP fun d => decide (d ∈ ops)) : Int) := by
  intro l
  induction l with
  | nil => intro acc x _ hx; simp at hx
  | cons op rest ih =>
    intro acc x hnd hx
    unfold initInDegreeAux
    rcases List.mem_cons.mp hx with rfl | hx2
    · have hxr : x ∉ rest := (List.nodup_cons.mp hnd).1
      rw [initAux_ne ops deps rest _ x hxr]
      exact bumpDeg_self ops x (lookupDeps deps x) acc
    · have hxop : x ≠ op := by
        intro h
        rw [h] at hx2
        exact (List.nodup_cons.mp hnd).1 hx2
      rw [ih _ x (List.nodup_cons.mp hnd).2 hx2, bumpDeg_ne ops op _ acc x hxop]

theorem initInDegree_mem (ops : List String) (deps : DepMap) (hops : ops.Nodup)
    {x : String} (hx : x ∈ ops) :
    initInDegree ops deps x = (((lookupDeps deps x).countP fun d => decide (d ∈ ops)) : Int) := by
  unfold initInDegree
  rw [initAux_mem ops deps ops _ x hops hx]
  ring

/-! ## Decrement-pass characterisation -/

theorem kahnPass_deg_ne (deps : DepMap) (node : String) :
    ∀ (l : List String) (deg : String → Int) (enq : List String) (x : String), x ∉ l →
    (kahnPass deps node l deg enq).1 x = deg x := by
  intro l
  induction l with
  | nil => intros; rfl
  | cons op rest ih =>
    intro deg enq x hx
    have hxop : x ≠ op := fun h => hx (h ▸ List.mem_cons_self _ _)
    have hxr : x ∉ rest := fun h => hx (List.mem_cons_of_mem _ h)
    unfold kahnPass
    by_cases hn : node ∈ lookupDeps deps op
    · rw [if_pos hn]
      by_cases hz : decAt deg op op = 0
      · rw [if_pos hz, ih _ _ x hxr, decAt_ne _ _ _ hxop]
      · rw [if_neg hz, ih _ _ x hxr, decAt_ne _ _ _ hxop]
    · rw [if_neg hn, ih _ _ x hxr]

theorem kahnPass_deg_mem (deps : DepMap) (node : String) :
    ∀ (l : List String) (deg : String → Int) (enq : List String) (x : String),
    l.Nodup → x ∈ l →
    (kahnPass deps node l deg enq).1 x
      = if node ∈ lookupDeps deps x then deg x - 1 else deg x := by
  intro l
  induction l with
  | nil => intro _ _ x _ hx; simp at hx
  | cons op rest ih =>
    intro deg enq x hnd hx
    unfold kahnPass
    rcases List.mem_cons.mp hx with rfl | hx2
    · have hxr : x ∉ rest := (List.nodup_cons.mp hnd).1
      by_cases hn : node ∈ lookupDeps deps x
      · rw [if_pos hn]
        by_cases hz : decAt deg x x = 0
        · rw [if_pos hz, kahnPass_deg_ne deps node rest _ _ x hxr, decAt_self, if_pos hn]
        · rw [if_neg hz, kahnPass_deg_ne deps node rest _ _ x hxr, decAt_self, if_pos hn]
      · rw [if_neg hn, kahnPass_deg_ne deps node rest _ _ x hxr, if_neg hn]
    · have hxop : x ≠ op := by
        intro h
        rw [h] at hx2
        exact (List.nodup_cons.mp hnd).1 hx2
      have hrest := (List.nodup_cons.mp hnd).2
      by_cases hn : node ∈ lookupDeps deps op
      · rw [if_pos hn]
        by_cases hz : decAt deg op op = 0
        · rw [if_pos hz, ih _ _ x hrest hx2, decAt_ne _ _ _ hxop]
        · rw [if_neg hz, ih _ _ x hrest hx2, decAt_ne _ _ _ hxop]
      · rw [if_neg hn, ih _ _ x hrest hx2]

theorem kahnPass_enq (deps : DepMap) (node : String) :
    ∀ (l : List String) (deg : String → Int) (enq : List String), l.Nodup →
    (kahnPass deps node l deg enq).2
      = enq ++ l.filter (fun op =>
          decide (node ∈ lookupDeps deps op) && decide (deg op - 1 = 0)) := by
  intro l
  induction l with
  | nil => intro deg enq _; simp [kahnPass]
  | cons op rest ih =>
    intro deg enq hnd
    have hor : op ∉ rest := (List.nodup_cons.mp hnd).1
    have hrest := (List.nodup_cons.mp hnd).2
    have hcongr : rest.filter (fun x =>
          decide (node ∈ lookupDeps deps x) && decide (decAt deg op x - 1 = 0))
        = rest.filter (fun x =>
          decide (node ∈ lookupDeps deps x) && decide (deg x - 1 = 0)) := by
      apply List.filter_congr
      intro x hx
      have hxop : x ≠ op := by
        intro h
        subst h
        exact hor hx
      rw [decAt_ne _ _ _ hxop]
    unfold kahnPass
    rw [List.filter_cons]
    by_cases hn : node ∈ lookupDeps deps op
    · have hd1 : (decide (node ∈ lookupDeps deps op)) = true := by simp [hn]
      by_cases hz : decAt deg op op = 0
      · have hz' : deg op - 1 = 0 := by
          rw [decAt_self] at hz
          exact hz
        have hd2 : (decide (deg op - 1 = 0)) = true := by simp [hz']
        rw [if_pos hn, if_pos hz, ih _ _ hrest, hcongr, hd1, hd2]
        simp
      · have hz' : ¬ deg op - 1 = 0 := by
          rw [decAt_self] at hz
          exact hz
        have hd2 : (decide (deg op - 1 = 0)) = false := by simp [hz']
        rw [if_pos hn, if_neg hz, ih _ _ hrest, hcongr, hd1, hd2]
        simp
    · have hd1 : (decide (node ∈ lookupDeps deps op)) = false := by simp [hn]
      rw [if_neg hn, ih _ _ hrest, hd1]
      simp

/-! ## The Kahn loop invariant -/

/-- Number of dependencies of `op` that are in the operator set but not
yet in the output; the meaning of `inDegree[op]` during the loop. -/
def degCount (ops : List String) (deps : DepMap) (sorted : List String) (op : String) : Nat :=
  (lookupDeps deps op).countP fun d => decide (d ∈ ops) && !decide (d ∈ sorted)

theorem degCount_step (ops : List String) (node : String) :
    ∀ (ds sorted : List String), ds.Nodup → node ∉ sorted →
    (ds.countP fun d => decide (d ∈ ops) && !decide (d ∈ sorted))
      = (ds.countP fun d => decide (d ∈ ops) && !decide (d ∈ (sorted ++ [node])))
        + (if node ∈ ds ∧ node ∈ ops then 1 else 0) := by
  intro ds
  induction ds with
  | nil =>
    intro sorted _ hns
    simp
  | cons d ds ih =>
    intro sorted hnd hns
    have hdds : d ∉ ds := (List.nodup_cons.mp hnd).1
    have hds := (List.nodup_cons.mp hnd).2
    rw [List.countP_cons, List.countP_cons]
    by_cases hd : d = node
    · subst hd
      have htail : (ds.countP fun x => decide (x ∈ ops) && !decide (x ∈ sorted))
          = (ds.countP fun x => decide (x ∈ ops) && !decide (x ∈ (sorted ++ [d]))) := by
        apply List.countP_congr
        intro x hx
        have hxd : x ≠ d := fun h => hdds (h ▸ hx)
        have : (x ∈ sorted ++ [d]) ↔ (x ∈ sorted) := by
          rw [List.mem_append]
          simp [hxd]
        simp [this]
      have hmem : d ∈ sorted ++ [d] := by simp
      have hnmem : (decide (d ∈ sorted)) = false := by simp [hns]
      by_cases hops : d ∈ ops
      · have h1 : (decide (d ∈ ops)) = true := by simp [hops]
        have h2 : (decide (d ∈ sorted ++ [d])) = true := by simp [hmem]
        have h3 : (if d ∈ d :: ds ∧ d ∈ ops then 1 else 0) = 1 :=
          if_pos ⟨List.mem_cons_self _ _, hops⟩
        rw [htail, h1, h2, hnmem, h3]
        simp
      · have h1 : (decide (d ∈ ops)) = false := by simp [hops]
        have h3 : (if d ∈ d :: ds ∧ d ∈ ops then 1 else 0) = 0 := by
          rw [if_neg]
          intro hc
          exact hops hc.2
        rw [htail, h1, h3]
        simp
    · have hhead : ((d ∈ sorted ++ [node])) ↔ (d ∈ sorted) := by
        rw [List.mem_append]
        simp [hd]
      have hind : (if node ∈ d :: ds ∧ node ∈ ops then 1 else 0)
          = (if node ∈ ds ∧ node ∈ ops then 1 else 0) := by
        by_cases hc : node ∈ ds ∧ node ∈ ops
        · rw [if_pos hc, if_pos ⟨List.mem_cons_of_mem _ hc.1, hc.2⟩]
        · rw [if_neg hc, if_neg]
          intro hc2
          rcases List.mem_cons.mp hc2.1 with h | h
          · exact hd h.symm
          · exact hc ⟨h, hc2.2⟩
      rw [ih sorted hds hns, hind]
      have : (decide (d ∈ sorted ++ [node])) = (decide (d ∈ sorted)) := by
        simp [hhead]
      rw [this]
      omega

/-- The output prefix respects dependencies: every in-set dependency of
the element at position `i` already occurs among the first `i` elements. -/
def TopoOrdered (deps : DepMap) (ops : List String) (l : List String) : Prop :=
  ∀ (i : Nat) (h : i < l.length), ∀ b ∈ lookupDeps deps (l.get ⟨i, h⟩), b ∈ ops → b ∈ l.take i

/-- Invariant of Kahn's main loop. -/
structure KahnInv (ops : List String) (deps : DepMap) (queue : List String)
    (deg : String → Int) (sorted : List String) : Prop where
  sub : ∀ x ∈ sorted ++ queue, x ∈ ops
  nodup : (sorted ++ queue).Nodup
  degEq : ∀ op ∈ ops, deg op = (degCount ops deps sorted op : Int)
  degZero : ∀ op ∈ ops, op ∈ sorted ++ queue → deg op = 0
  topo : TopoOrdered deps ops sorted

theorem degCount_zero_mem {ops : List String} {deps : DepMap} {sorted : List String}
    {op : String} (h : degCount ops deps sorted op = 0) :
    ∀ d ∈ lookupDeps deps op, d ∈ ops → d ∈ sorted := by
  unfold degCount at h
  intro d hd hdops
  have := List.countP_eq_zero.mp h d hd
  by_contra hds
  apply this
  simp [hdops, hds]

theorem kahnStep (ops : List String) (deps : DepMap) (hops : ops.Nodup)
    (hdeps : ∀ op, (lookupDeps deps op).Nodup)
    (node : String) (rest : List String) (deg : String → Int) (sorted : List String)
    (inv : KahnInv ops deps (node :: rest) deg sorted) :
    KahnInv ops deps (rest ++ (kahnPass deps node ops deg []).2)
      (kahnPass deps node ops deg []).1 (sorted ++ [node]) := by
  have hnode_mem : node ∈ ops := inv.sub node (by simp)
  have hnodup := inv.nodup
  have hnode_nsorted : node ∉ sorted := by
    rcases List.nodup_append.mp hnodup with ⟨_, _, hdisj⟩
    exact fun h => hdisj h (by simp)
  have henq : (kahnPass deps node ops deg []).2
      = ops.filter (fun op => decide (node ∈ lookupDeps deps op) && decide (deg op - 1 = 0)) := by
    rw [kahnPass_enq deps node ops deg [] hops]
    simp
  have hdegmem : ∀ x ∈ ops, (kahnPass deps node ops deg []).1 x
      = if node ∈ lookupDeps deps x then deg x - 1 else deg x :=
    fun x hx => kahnPass_deg_mem deps node ops deg [] x hops hx
  have hno_dec_of_done : ∀ op ∈ ops, op ∈ sorted ++ node :: rest → node ∉ lookupDeps deps op := by
    intro op hop hmem hn
    have h0 := inv.degZero op hop hmem
    have hEq := inv.degEq op hop
    rw [h0] at hEq
    have hc : degCount ops deps sorted op = 0 := by omega
    have := degCount_zero_mem hc node hn hnode_mem
    exact hnode_nsorted this
  have henq_mem : ∀ op ∈ (kahnPass deps node ops deg []).2,
      op ∈ ops ∧ node ∈ lookupDeps deps op ∧ deg op - 1 = 0 := by
    intro op hop
    rw [henq] at hop
    have h1 := List.mem_of_mem_filter hop
    have h2 := List.of_mem_filter hop
    simp at h2
    exact ⟨h1, h2.1, h2.2⟩
  have henq_fresh : ∀ op ∈ (kahnPass deps node ops deg []).2, op ∉ sorted ++ node :: rest := by
    intro op hop hmem
    obtain ⟨h1, _, h3⟩ := henq_mem op hop
    have h0 := inv.degZero op h1 hmem
    omega
  refine ⟨?_, ?_, ?_, ?_, ?_⟩
  · intro x hx
    rw [List.mem_append] at hx
    rcases hx with hx | hx
    · rw [List.mem_append] at hx
      rcases hx with hx | hx
      · exact inv.sub x (List.mem_append_left _ hx)
      · simp at hx
        subst hx
        exact hnode_mem
    · rw [List.mem_append] at hx
      rcases hx with hx | hx
      · exact inv.sub x (List.mem_append_right _ (List.mem_cons_of_mem _ hx))
      · exact (henq_mem x hx).1
  · have hshape : (sorted ++ [node]) ++ (rest ++ (kahnPass deps node ops deg []).2)
        = (sorted ++ node :: rest) ++ (kahnPass deps node ops deg []).2 := by
      rw [List.append_assoc, List.append_assoc]
      rfl
    rw [hshape]
    apply List.Nodup.append hnodup
    · rw [henq]
      exact hops.filter _
    · intro a ha hae
      exact henq_fresh a hae ha
  · intro op hop
    rw [hdegmem op hop]
    have hold := inv.degEq op hop
    have hcp := degCount_step ops node (lookupDeps deps op) sorted (hdeps op) hnode_nsorted
    unfold degCount at hold ⊢
    by_cases hn : node ∈ lookupDeps deps op
    · rw [if_pos hn]
      rw [if_pos ⟨hn, hnode_mem⟩] at hcp
      omega
    · rw [if_neg hn]
      rw [if_neg (fun hc => hn hc.1)] at hcp
      omega
  · intro op hop hmem
    rw [hdegmem op hop]
    rw [List.mem_append] at hmem
    rcases hmem with hmem | hmem
    · have hmem' : op ∈ sorted ++ node :: rest := by
        rw [List.mem_append] at hmem ⊢
        rcases hmem with hmem | hmem
        · exact Or.inl hmem
        · simp at hmem
          subst hmem
          exact Or.inr (List.mem_cons_self _ _)
      rw [if_neg (hno_dec_of_done op hop hmem')]
      exact inv.degZero op hop hmem'
    · rw [List.mem_append] at hmem
      rcases hmem with hmem | hmem
      · have hmem' : op ∈ sorted ++ node :: rest :=
          List.mem_append_right _ (List.mem_cons_of_mem _ hmem)
        rw [if_neg (hno_dec_of_done op hop hmem')]
        exact inv.degZero op hop hmem'
      · obtain ⟨_, h2, h3⟩ := henq_mem op hmem
        rw [if_pos h2]
        exact h3
  · intro i h b hb hbops
    have hlen : (sorted ++ [node]).length = sorted.length + 1 := by
      rw [List.length_append]
      rfl
    by_cases hi : i < sorted.length
    · have hget : (sorted ++ [node]).get ⟨i, h⟩ = sorted.get ⟨i, hi⟩ := by
        rw [List.get_eq_getElem, List.get_eq_getElem]
        exact List.getElem_append_left hi
      rw [hget] at hb
      have htake : (sorted ++ [node]).take i = sorted.take i :=
        List.take_append_of_le_length (Nat.le_of_lt hi)
      rw [htake]
      exact inv.topo i hi b hb hbops
    · have hi' : i = sorted.length := by omega
      subst hi'
      have hget : (sorted ++ [node]).get ⟨sorted.length, h⟩ = node := by
        rw [List.get_eq_getElem]
        exact List.getElem_concat_length sorted node _ rfl _
      rw [hget] at hb
      rw [List.take_left]
      have hq := inv.degZero node hnode_mem
        (List.mem_append_right _ (List.mem_cons_self _ _))
      have hEq := inv.degEq node hnode_mem
      rw [hq] at hEq
      have hc : degCount ops deps sorted node = 0 := by omega
      exact degCount_zero_mem hc b hb hbops

theorem kahnLoop_spec (ops : List String) (deps : DepMap) (hops : ops.Nodup)
    (hdeps : ∀ op, (lookupDeps deps op).Nodup) :
    ∀ (fuel : Nat) (queue : List String) (deg : String → Int) (sorted out : List String),
    KahnInv ops deps queue deg sorted →
    kahnLoop ops deps fuel queue deg sorted = some out →
    (∀ x ∈ out, x ∈ ops) ∧ out.Nodup ∧ TopoOrdered deps ops out := by
  intro fuel
  induction fuel with
  | zero =>
    intro queue deg sorted out inv hrun
    cases queue with
    | nil =>
      simp only [kahnLoop] at hrun
      injection hrun with hrun
      subst hrun
      refine ⟨fun x hx => inv.sub x (List.mem_append_left _ hx), ?_, inv.topo⟩
      have := inv.nodup
      simpa using this
    | cons node rest => simp [kahnLoop] at hrun
  | succ fuel ih =>
    intro queue deg sorted out inv hrun
    cases queue with
    | nil =>
      simp only [kahnLoop] at hrun
      injection hrun with hrun
      subst hrun
      refine ⟨fun x hx => inv.sub x (List.mem_append_left _ hx), ?_, inv.topo⟩
      have := inv.nodup
      simpa using this
    | cons node rest =>
      simp only [kahnLoop] at hrun
      exact ih _ _ _ out (kahnStep ops deps hops hdeps node rest deg sorted inv) hrun

theorem topologicalSort_spec (ops : List String) (deps : DepMap) (hops : ops.Nodup)
    (hdeps : ∀ op, (lookupDeps deps op).Nodup) (sorted : List String)
    (h : topologicalSort ops deps = Except.ok sorted) :
    sorted.Perm ops ∧ sorted.Nodup ∧ TopoOrdered deps ops sorted := by
  simp only [topologicalSort] at h
  rcases hk : kahnLoop ops deps (2 * ops.length + 1)
      (ops.filter fun op => decide (initInDegree ops deps op = 0))
      (initInDegree ops deps) [] with _ | out
  · rw [hk] at h
    simp at h
  · rw [hk] at h
    have h2 : (if out.length = ops.length then Except.ok out
        else (Except.error "dependency graph has a cycle" : Except String (List String)))
        = Except.ok sorted := h
    by_cases hlen : out.length = ops.length
    · rw [if_pos hlen] at h2
      injection h2 with h2
      subst h2
      have inv0 : KahnInv ops deps
          (ops.filter fun op => decide (initInDegree ops deps op = 0))
          (initInDegree ops deps) [] := by
        refine ⟨?_, ?_, ?_, ?_, ?_⟩
        · intro x hx
          simp only [List.nil_append] at hx
          exact List.mem_of_mem_filter hx
        · simp only [List.nil_append]
          exact hops.filter _
        · intro op hop
          rw [initInDegree_mem ops deps hops hop]
          unfold degCount
          congr 1
          apply List.countP_congr
          intro d _
          simp
        · intro op _ hmem
          simp only [List.nil_append] at hmem
          have := List.of_mem_filter hmem
          simpa using this
        · intro i hi
          simp at hi
      obtain ⟨c1, c2, c3⟩ := kahnLoop_spec ops deps hops hdeps _ _ _ _ out inv0 hk
      refine ⟨?_, c2, c3⟩
      have hsp := List.Nodup.subperm c2 (fun x hx => c1 x hx)
      exact hsp.perm_of_length_le (by omega)
    · rw [if_neg hlen] at h2
      simp at h2

theorem topologicalSort_error_msg (ops : List String) (deps : DepMap) (e : String)
    (h : topologicalSort ops deps = Except.error e) :
    e = "dependency graph has a cycle" := by
  simp only [topologicalSort] at h
  rcases hk : kahnLoop ops deps (2 * ops.length + 1)
      (ops.filter fun op => decide (initInDegree ops deps op = 0))
      (initInDegree ops deps) [] with _ | out
  · rw [hk] at h
    injection h with h
    exact h.symm
  · rw [hk] at h
    have h2 : (if out.length = ops.length then Except.ok out
        else (Except.error "dependency graph has a cycle" : Except String (List String)))
        = Except.error e := h
    by_cases hlen : out.length = ops.length
    · rw [if_pos hlen] at h2
      simp at h2
    · rw [if_neg hlen] at h2
      injection h2 with h2
      exact h2.symm

/-! ## Index order conversion -/

theorem indexOf_lt_of_mem_take :
    ∀ (l : List String) (i : Nat) (b : String), b ∈ l.take i → l.indexOf b < i := by
  intro l
  induction l with
  | nil => intro i b hb; simp at hb
  | cons a t ih =>
    intro i b hb
    cases i with
    | zero => simp at hb
    | succ i =>
      rw [List.take_succ_cons] at hb
      by_cases hba : b = a
      · subst hba
        rw [List.indexOf_cons_self]
        omega
      · rcases List.mem_cons.mp hb with h | h
        · exact absurd h hba
        · have hlt := ih i b h
          have hne : (a == b) = false := by
            simp
            exact fun he => hba he.symm
          rw [List.indexOf_cons, hne]
          simp
          omega

theorem indexOf_get_of_nodup :
    ∀ (l : List String), l.Nodup → ∀ (i : Nat) (h : i < l.length),
    l.indexOf (l.get ⟨i, h⟩) = i := by
  intro l
  induction l with
  | nil => intro _ i h; simp at h
  | cons a t ih =>
    intro hnd i h
    cases i with
    | zero => simp [List.indexOf_cons_self]
    | succ i =>
      have h' : i < t.length := by
        rw [List.length_cons] at h
        omega
      have hget : (a :: t).get ⟨i + 1, h⟩ = t.get ⟨i, h'⟩ := rfl
      rw [hget]
      have hmem : t.get ⟨i, h'⟩ ∈ t := List.get_mem t i h' 
      have hne : (a == t.get ⟨i, h'⟩) = false := by
        simp
        intro he
        exact (List.nodup_cons.mp hnd).1 (he ▸ hmem)
      rw [List.indexOf_cons, hne]
      simp only [cond_false]
      rw [ih (List.nodup_cons.mp hnd).2 i h']

theorem topo_indexOf (ops : List String) (deps : DepMap) (hops : ops.Nodup)
    (hdeps : ∀ op, (lookupDeps deps op).Nodup) (sorted : List String)
    (h : topologicalSort ops deps = Except.ok sorted) :
    ∀ a b, a ∈ ops → b ∈ ops → b ∈ lookupDeps deps a →
    sorted.indexOf b < sorted.indexOf a := by
  obtain ⟨hperm, hnd, htopo⟩ := topologicalSort_spec ops deps hops hdeps sorted h
  intro a b ha hb hdep
  have haS : a ∈ sorted := hperm.mem_iff.mpr ha
  obtain ⟨⟨i, hi⟩, hget⟩ := List.mem_iff_get.mp haS
  have hbtake : b ∈ sorted.take i := htopo i hi b (by rw [hget]; exact hdep) hb
  have h1 : sorted.indexOf b < i := indexOf_lt_of_mem_take sorted i b hbtake
  have h2 : sorted.indexOf a = i := by
    rw [← hget]
    exact indexOf_get_of_nodup sorted hnd i hi
  omega

/-! ## Cycles -/

/-- The dependency relation restricted to the operator set. -/
def stepIn (ops : List String) (deps : DepMap) (a b : String) : Prop :=
  b ∈ lookupDeps deps a ∧ a ∈ ops ∧ b ∈ ops

theorem topologicalSort_cycle (ops : List String) (deps : DepMap) (hops : ops.Nodup)
    (hdeps : ∀ op, (lookupDeps deps op).Nodup)
    (hcyc : ∃ a, Relation.TransGen (stepIn ops deps) a a) :
    topologicalSort ops deps = Except.error "dependency graph has a cycle" := by
  rcases hres : topologicalSort ops deps with e | sorted
  · rw [topologicalSort_error_msg ops deps e hres]
  · exfalso
    obtain ⟨a, ha⟩ := hcyc
    have hord := topo_indexOf ops deps hops hdeps sorted hres
    have hlt : ∀ x y, Relation.TransGen (stepIn ops deps) x y →
        sorted.indexOf y < sorted.indexOf x := by
      intro x y hxy
      induction hxy with
      | single hstep => exact hord _ _ hstep.2.1 hstep.2.2 hstep.1
      | tail _ hstep ihstep =>
        exact lt_trans (hord _ _ hstep.2.1 hstep.2.2 hstep.1) ihstep
    exact lt_irrefl _ (hlt a a ha)

/-! ## Message and test-case building lemmas -/

theorem notFoundMsg_ne_empty (op : String) : notFoundMsg op ≠ "" := by
  unfold notFoundMsg
  apply append_ne_empty
  apply length_append_left_pos
  decide

theorem preconMsg_ne_empty (d : String) : preconMsg d ≠ "" := by
  unfold preconMsg
  apply append_ne_empty
  apply length_append_left_pos
  decide

theorem condFailMsg_ne_empty (op a d p : String) : condFailMsg op a d p ≠ "" := by
  unfold condFailMsg
  apply append_ne_empty
  apply length_append_left_pos
  apply length_append_left_pos
  apply length_append_left_pos
  apply length_append_left_pos
  apply length_append_left_pos
  apply length_append_left_pos
  decide

theorem tcMake_fail (n fm s : String) (h : fm ≠ "") :
    tcMake n fm s = ⟨n, Outcome.failed fm⟩ := by
  unfold tcMake
  rw [if_pos h]

theorem tcMake_skip (n s : String) (h : s ≠ "") :
    tcMake n "" s = ⟨n, Outcome.skipped s⟩ := by
  unfold tcMake
  rw [if_neg (fun hc => hc rfl), if_pos h]

theorem tcMake_pass (n : String) : tcMake n "" "" = ⟨n, Outcome.passed⟩ := by
  unfold tcMake
  rw [if_neg (fun hc => hc rfl), if_neg (fun hc => hc rfl)]

/-! ## Evaluator step characterisation -/

theorem evalOperator_none (fd : DepMap) (failed : List String) (opName : String) :
    evalOperator fd failed (opName, none)
      = (⟨tcNamePrefix ++ opName, Outcome.skipped (notFoundMsg opName)⟩, failed) := by
  have h : evalOperator fd failed (opName, none)
      = (tcMake (tcNamePrefix ++ opName) "" (notFoundMsg opName), failed) := rfl
  rw [h, tcMake_skip _ _ (notFoundMsg_ne_empty opName)]

theorem evalOperator_skip_dep (fd : DepMap) (failed : List String) (opName : String)
    (rec : OperatorRecord) (d : String)
    (hf : (lookupDeps fd opName).find? (fun x => decide (x ∈ failed)) = some d) :
    evalOperator fd failed (opName, some rec)
      = (⟨tcNamePrefix ++ opName, Outcome.skipped (preconMsg d)⟩, failed) := by
  unfold evalOperator
  simp only [hf]
  rw [tcMake_skip _ _ (preconMsg_ne_empty d)]

theorem evalOperator_pass (fd : DepMap) (failed : List String) (opName : String)
    (rec : OperatorRecord)
    (hf : (lookupDeps fd opName).find? (fun x => decide (x ∈ failed)) = none)
    (hcond : condStatus rec "Available" = "True" ∧ condStatus rec "Degraded" = "False"
      ∧ condStatus rec "Progressing" = "False") :
    evalOperator fd failed (opName, some rec)
      = (⟨tcNamePrefix ++ opName, Outcome.passed⟩, failed) := by
  unfold evalOperator
  simp only [hf]
  rw [if_pos hcond, tcMake_pass]

theorem evalOperator_fail (fd : DepMap) (failed : List String) (opName : String)
    (rec : OperatorRecord)
    (hf : (lookupDeps fd opName).find? (fun x => decide (x ∈ failed)) = none)
    (hcond : ¬ (condStatus rec "Available" = "True" ∧ condStatus rec "Degraded" = "False"
      ∧ condStatus rec "Progressing" = "False")) :
    evalOperator fd failed (opName, some rec)
      = (⟨tcNamePrefix ++ opName,
          Outcome.failed (condFailMsg opName (condStatus rec "Available")
            (condStatus rec "Degraded") (condStatus rec "Progressing"))⟩,
         opName :: failed) := by
  unfold evalOperator
  simp only [hf]
  rw [if_neg hcond, tcMake_fail _ _ _ (condFailMsg_ne_empty _ _ _ _)]

/-- Exhaustive case analysis of one evaluator step. -/
theorem evalOperator_cases (fd : DepMap) (failed : List String)
    (item : String × Option OperatorRecord) :
    (item.2 = none ∧ evalOperator fd failed item
      = (⟨tcNamePrefix ++ item.1, Outcome.skipped (notFoundMsg item.1)⟩, failed))
  ∨ (∃ rec d, item.2 = some rec
      ∧ (lookupDeps fd item.1).find? (fun x => decide (x ∈ failed)) = some d
      ∧ d ∈ lookupDeps fd item.1 ∧ d ∈ failed
      ∧ evalOperator fd failed item
        = (⟨tcNamePrefix ++ item.1, Outcome.skipped (preconMsg d)⟩, failed))
  ∨ (∃ rec, item.2 = some rec
      ∧ (lookupDeps fd item.1).find? (fun x => decide (x ∈ failed)) = none
      ∧ (condStatus rec "Available" = "True" ∧ condStatus rec "Degraded" = "False"
          ∧ condStatus rec "Progressing" = "False")
      ∧ evalOperator fd failed item = (⟨tcNamePrefix ++ item.1, Outcome.passed⟩, failed))
  ∨ (∃ rec, item.2 = some rec
      ∧ (lookupDeps fd item.1).find? (fun x => decide (x ∈ failed)) = none
      ∧ ¬ (condStatus rec "Available" = "True" ∧ condStatus rec "Degraded" = "False"
          ∧ condStatus rec "Progressing" = "False")
      ∧ evalOperator fd failed item
        = (⟨tcNamePrefix ++ item.1,
            Outcome.failed (condFailMsg item.1 (condStatus rec "Available")
              (condStatus rec "Degraded") (condStatus rec "Progressing"))⟩,
           item.1 :: failed)) := by
  obtain ⟨opName, x⟩ := item
  cases x with
  | none => exact Or.inl ⟨rfl, evalOperator_none fd failed opName⟩
  | some rec =>
    rcases hf : (lookupDeps fd opName).find? (fun x => decide (x ∈ failed)) with _ | d
    · by_cases hcond : condStatus rec "Available" = "True"
          ∧ condStatus rec "Degraded" = "False" ∧ condStatus rec "Progressing" = "False"
      · exact Or.inr (Or.inr (Or.inl
          ⟨rec, rfl, rfl, hcond, evalOperator_pass fd failed opName rec hf hcond⟩))
      · exact Or.inr (Or.inr (Or.inr
          ⟨rec, rfl, rfl, hcond, evalOperator_fail fd failed opName rec hf hcond⟩))
    · refine Or.inr (Or.inl ⟨rec, d, rfl, rfl, List.mem_of_find?_eq_some hf, ?_,
        evalOperator_skip_dep fd failed opName rec d hf⟩)
      have h1 := List.find?_some hf
      simp at h1
      exact h1

theorem evalOperator_name (fd : DepMap) (failed : List String)
    (item : String × Option OperatorRecord) :
    (evalOperator fd failed item).1.name = tcNamePrefix ++ item.1 := by
  rcases evalOperator_cases fd failed item with ⟨_, he⟩ | ⟨_, _, _, _, _, _, he⟩
    | ⟨_, _, _, _, he⟩ | ⟨_, _, _, _, he⟩
  all_goals rw [he]

theorem evalOperator_failedSet (fd : DepMap) (failed : List String)
    (item : String × Option OperatorRecord) :
    (evalOperator fd failed item).2 = failed ∨ (evalOperator fd failed item).2 = item.1 :: failed := by
  rcases evalOperator_cases fd failed item with ⟨_, he⟩ | ⟨_, _, _, _, _, _, he⟩
    | ⟨_, _, _, _, he⟩ | ⟨_, _, _, _, he⟩
  · exact Or.inl (by rw [he])
  · exact Or.inl (by rw [he])
  · exact Or.inl (by rw [he])
  · exact Or.inr (by rw [he])

/-! ## Evaluator loop lemmas -/

theorem evalOperators_nil (fd : DepMap) (f : List String) :
    evalOperators fd [] f = ([], f) := rfl

theorem evalOperators_cons (fd : DepMap) (item : String × Option OperatorRecord)
    (rest : List (String × Option OperatorRecord)) (f : List String) :
    evalOperators fd (item :: rest) f
      = ((evalOperator fd f item).1 :: (evalOperators fd rest (evalOperator fd f item).2).1,
         (evalOperators fd rest (evalOperator fd f item).2).2) := rfl

theorem evalOperators_append (fd : DepMap) :
    ∀ (l₁ l₂ : List (String × Option OperatorRecord)) (f : List String),
    evalOperators fd (l₁ ++ l₂) f
      = ((evalOperators fd l₁ f).1 ++ (evalOperators fd l₂ (evalOperators fd l₁ f).2).1,
         (evalOperators fd l₂ (evalOperators fd l₁ f).2).2) := by
  intro l₁
  induction l₁ with
  | nil => intro l₂ f; simp [evalOperators_nil]
  | cons item rest ih =>
    intro l₂ f
    rw [List.cons_append, evalOperators_cons, ih, evalOperators_cons]
    rfl

theorem evalOperators_mono (fd : DepMap) :
    ∀ (l : List (String × Option OperatorRecord)) (f : List String) (x : String),
    x ∈ f → x ∈ (evalOperators fd l f).2 := by
  intro l
  induction l with
  | nil => intro f x hx; exact hx
  | cons item rest ih =>
    intro f x hx
    rw [evalOperators_cons]
    apply ih
    rcases evalOperator_failedSet fd f item with he | he
    · rw [he]; exact hx
    · rw [he]; exact List.mem_cons_of_mem _ hx

theorem evalOperators_failed_sub (fd : DepMap) :
    ∀ (l : List (String × Option OperatorRecord)) (f : List String) (x : String),
    x ∈ (evalOperators fd l f).2 → x ∈ f ∨ x ∈ l.map Prod.fst := by
  intro l
  induction l with
  | nil => intro f x hx; exact Or.inl hx
  | cons item rest ih =>
    intro f x hx
    rw [evalOperators_cons] at hx
    rcases ih _ x hx with hx2 | hx2
    · rcases evalOperator_failedSet fd f item with he | he
      · rw [he] at hx2
        exact Or.inl hx2
      · rw [he] at hx2
        rcases List.mem_cons.mp hx2 with rfl | hx3
        · exact Or.inr (by simp)
        · exact Or.inl hx3
    · exact Or.inr (by simp [hx2])

theorem evalOperators_tc_mem (fd : DepMap) :
    ∀ (l : List (String × Option OperatorRecord)) (f : List String) (tc : TestCase),
    tc ∈ (evalOperators fd l f).1 →
    ∃ l₁ it l₂, l = l₁ ++ it :: l₂
      ∧ tc = (evalOperator fd (evalOperators fd l₁ f).2 it).1 := by
  intro l
  induction l with
  | nil => intro f tc htc; rw [evalOperators_nil] at htc; simp at htc
  | cons item rest ih =>
    intro f tc htc
    rw [evalOperators_cons] at htc
    rcases List.mem_cons.mp htc with rfl | htc2
    · exact ⟨[], item, rest, rfl, by rw [evalOperators_nil]⟩
    · obtain ⟨l₁, it, l₂, hdec, heq⟩ := ih _ tc htc2
      refine ⟨item :: l₁, it, l₂, by rw [hdec, List.cons_append], ?_⟩
      rw [heq, evalOperators_cons]

theorem evalOperators_fail_split (fd : DepMap) :
    ∀ (l : List (String × Option OperatorRecord)) (f : List String) (x : String),
    x ∉ f → x ∈ (evalOperators fd l f).2 →
    ∃ l₁ it l₂, l = l₁ ++ it :: l₂ ∧ it.1 = x
      ∧ (evalOperator fd (evalOperators fd l₁ f).2 it).2 = x :: (evalOperators fd l₁ f).2
      ∧ ∃ msg, (evalOperator fd (evalOperators fd l₁ f).2 it).1.outcome = Outcome.failed msg := by
  intro l
  induction l with
  | nil => intro f x hxf hx; rw [evalOperators_nil] at hx; exact absurd hx hxf
  | cons item rest ih =>
    intro f x hxf hx
    rw [evalOperators_cons] at hx
    rcases evalOperator_cases fd f item with ⟨_, he⟩ | ⟨_, _, _, _, _, _, he⟩
      | ⟨_, _, _, _, he⟩ | ⟨rec, hsome, hfind, hcond, he⟩
    · obtain ⟨l₁, it, l₂, hdec, hname, hadd, msg, hout⟩ := ih _ x hxf (by rw [he] at hx; exact hx)
      refine ⟨item :: l₁, it, l₂, by rw [hdec, List.cons_append], hname, ?_, msg, ?_⟩
      · rw [evalOperators_cons, he]
        exact hadd
      · rw [evalOperators_cons, he]
        exact hout
    · obtain ⟨l₁, it, l₂, hdec, hname, hadd, msg, hout⟩ := ih _ x hxf (by rw [he] at hx; exact hx)
      refine ⟨item :: l₁, it, l₂, by rw [hdec, List.cons_append], hname, ?_, msg, ?_⟩
      · rw [evalOperators_cons, he]
        exact hadd
      · rw [evalOperators_cons, he]
        exact hout
    · obtain ⟨l₁, it, l₂, hdec, hname, hadd, msg, hout⟩ := ih _ x hxf (by rw [he] at hx; exact hx)
      refine ⟨item :: l₁, it, l₂, by rw [hdec, List.cons_append], hname, ?_, msg, ?_⟩
      · rw [evalOperators_cons, he]
        exact hadd
      · rw [evalOperators_cons, he]
        exact hout
    · by_cases hxi : x = item.1
      · subst hxi
        refine ⟨[], item, rest, rfl, rfl, ?_, ?_⟩
        · rw [evalOperators_nil, he]
        · exact ⟨condFailMsg item.1 (condStatus rec "Available") (condStatus rec "Degraded")
            (condStatus rec "Progressing"), by rw [evalOperators_nil, he]⟩
      · have hxf2 : x ∉ (evalOperator fd f item).2 := by
          rw [he]
          intro hc
          rcases List.mem_cons.mp hc with h | h
          · exact hxi h
          · exact hxf h
        obtain ⟨l₁, it, l₂, hdec, hname, hadd, msg, hout⟩ := ih _ x hxf2 hx
        refine ⟨item :: l₁, it, l₂, by rw [hdec, List.cons_append], hname, ?_, msg, ?_⟩
        · rw [evalOperators_cons]
          exact hadd
        · rw [evalOperators_cons]
          exact hout

theorem find_skip (p : TestCase → Bool) :
    ∀ (l₁ l₂ : List TestCase), (∀ a ∈ l₁, p a = false) →
    (l₁ ++ l₂).find? p = l₂.find? p := by
  intro l₁
  induction l₁ with
  | nil => intro l₂ _; rfl
  | cons a t ih =>
    intro l₂ hall
    rw [List.cons_append, List.find?_cons_of_neg _ (by simp [hall a (List.mem_cons_self _ _)])]
    exact ih l₂ (fun b hb => hall b (List.mem_cons_of_mem _ hb))

theorem tcFor_split (fd : DepMap) (l₁ : List (String × Option OperatorRecord))
    (it : String × Option OperatorRecord) (l₂ : List (String × Option OperatorRecord))
    (f : List String) (hnd : ((l₁ ++ it :: l₂).map Prod.fst).Nodup) :
    tcFor (evalOperators fd (l₁ ++ it :: l₂) f).1 it.1
      = some (evalOperator fd (evalOperators fd l₁ f).2 it).1 := by
  rw [evalOperators_append]
  unfold tcFor
  have hnotin : it.1 ∉ l₁.map Prod.fst := by
    rw [List.map_append, List.map_cons] at hnd
    rcases List.nodup_append.mp hnd with ⟨_, _, hdisj⟩
    intro hc
    exact hdisj hc (List.mem_cons_self _ _)
  rw [find_skip]
  · rw [evalOperators_cons, List.find?_cons_of_pos]
    rw [evalOperator_name]
    simp
  · intro tc htc
    obtain ⟨a, it', b, hdec, heq⟩ := evalOperators_tc_mem fd l₁ f tc htc
    rw [heq, evalOperator_name]
    have hmem : it'.1 ∈ l₁.map Prod.fst := by
      rw [hdec, List.map_append, List.map_cons]
      exact List.mem_append_right _ (List.mem_cons_self _ _)
    have hne : it'.1 ≠ it.1 := fun h => hnotin (h ▸ hmem)
    simp
    intro hc
    exact hne (string_append_left_cancel hc)

/-! ## Run-level lemmas -/

theorem coreOps_nodup (md : DepMap) : (coreOps md).Nodup :=
  sortStrings_nodup (expand_keys_nodup md)

theorem mem_coreOps {md : DepMap} {x : String} :
    x ∈ coreOps md ↔ x ∈ keysOf md ∨ x ∈ valuesOf md := by
  unfold coreOps
  rw [mem_sortStrings]
  exact mem_expand_keys

theorem run_unpack {md : DepMap} {cl : List (String × OperatorRecord)}
    {tcs : List TestCase} {fs : List String}
    (h : runOperatorChecks md cl = some (tcs, fs)) :
    ∃ sc, topologicalSort (coreOps md) (expandDependencies md) = Except.ok sc
      ∧ evalOperators (expandDependencies md) (runItems cl sc) [] = (tcs, fs) := by
  simp only [runOperatorChecks] at h
  rcases ht : topologicalSort (coreOps md) (expandDependencies md) with e | sc
  · rw [ht] at h
    simp at h
  · rw [ht] at h
    have h2 : some (evalOperators (expandDependencies md) (runItems cl sc) []) = some (tcs, fs) := h
    injection h2 with h2
    exact ⟨sc, rfl, h2⟩

theorem names_core_part (cl : List (String × OperatorRecord)) (w : List String)
    (q : String × OperatorRecord → Bool) :
    (((w.map fun n => (n, flookup cl n))
        ++ (cl.filter q).map (fun p => (p.1, some p.2))).map Prod.fst)
      = w ++ (cl.filter q).map Prod.fst := by
  rw [List.map_append, List.map_map, List.map_map,
    show (Prod.fst ∘ fun n => (n, flookup cl n)) = id from rfl, List.map_id,
    show (Prod.fst ∘ fun p : String × OperatorRecord => (p.1, some p.2))
      = Prod.fst from rfl]

theorem runItems_names (cl : List (String × OperatorRecord)) (sc : List String) :
    (runItems cl sc).map Prod.fst
      = sc ++ (cl.filter (fun p => decide (p.1 ∉ sc))).map Prod.fst :=
  names_core_part cl sc _

theorem runItems_names_nodup (cl : List (String × OperatorRecord)) (sc : List String)
    (hcl : (cl.map Prod.fst).Nodup) (hsc : sc.Nodup) :
    ((runItems cl sc).map Prod.fst).Nodup := by
  rw [runItems_names]
  apply List.Nodup.append hsc
  · have hsub : List.Sublist ((cl.filter (fun p => decide (p.1 ∉ sc))).map Prod.fst)
        (cl.map Prod.fst) := List.Sublist.map Prod.fst (List.filter_sublist cl)
    exact hcl.sublist hsub
  · intro a ha hafilter
    rw [List.mem_map] at hafilter
    obtain ⟨p, hp, hpa⟩ := hafilter
    have hq := List.of_mem_filter hp
    simp at hq
    exact hq (hpa ▸ ha)

theorem runItems_core_decomp (cl : List (String × OperatorRecord))
    (u : List String) (X : String) (w : List String) :
    runItems cl (u ++ X :: w)
      = (u.map fun n => (n, flookup cl n)) ++ (X, flookup cl X)
        :: ((w.map fun n => (n, flookup cl n))
            ++ (cl.filter (fun p => decide (p.1 ∉ (u ++ X :: w)))).map (fun p => (p.1, some p.2))) := by
  unfold runItems
  rw [List.map_append, List.map_cons, List.append_assoc, List.cons_append]

theorem testCase_eq (tc : TestCase) (n : String) (o : Outcome)
    (h1 : tc.name = n) (h2 : tc.outcome = o) : tc = ⟨n, o⟩ := by
  cases tc with
  | mk a b =>
    have h1' : a = n := h1
    have h2' : b = o := h2
    subst h1'
    subst h2'
    rfl

/-- Every member of the final failure set has a Failed test case. -/
theorem run_fs_tc_failed (md : DepMap) (cl : List (String × OperatorRecord))
    (hcl : (cl.map Prod.fst).Nodup) (tcs : List TestCase) (fs : List String)
    (hrun : runOperatorChecks md cl = some (tcs, fs)) (d : String) (hd : d ∈ fs) :
    ∃ msg, tcFor tcs d = some ⟨tcNamePrefix ++ d, Outcome.failed msg⟩ := by
  obtain ⟨sc, hts, heval⟩ := run_unpack hrun
  have hops := coreOps_nodup md
  have hdeps : ∀ op, (lookupDeps (expandDependencies md) op).Nodup :=
    fun op => expandedDeps_nodup md op
  obtain ⟨_, hscnd, _⟩ := topologicalSort_spec _ _ hops hdeps sc hts
  have hnames := runItems_names_nodup cl sc hcl hscnd
  have hfs : fs = (evalOperators (expandDependencies md) (runItems cl sc) []).2 := by
    rw [heval]
  rw [hfs] at hd
  obtain ⟨l₁, it, l₂, hdec, hname, _, msg, hout⟩ :=
    evalOperators_fail_split (expandDependencies md) (runItems cl sc) [] d (by simp) hd
  have htc := tcFor_split (expandDependencies md) l₁ it l₂ [] (by rw [← hdec]; exact hnames)
  rw [← hdec] at htc
  have htcs : tcs = (evalOperators (expandDependencies md) (runItems cl sc) []).1 := by
    rw [heval]
  refine ⟨msg, ?_⟩
  rw [htcs, ← hname, htc]
  congr 1
  exact testCase_eq _ _ _
    (by rw [evalOperator_name, hname]) (by rw [hout])

/-- An operator whose emitted test case is Failed is in the failure set. -/
theorem run_failed_tc_mem (md : DepMap) (cl : List (String × OperatorRecord))
    (tcs : List TestCase) (fs : List String)
    (hrun : runOperatorChecks md cl = some (tcs, fs)) (X : String) (tc : TestCase)
    (msg : String) (htc : tcFor tcs X = some tc) (hout : tc.outcome = Outcome.failed msg) :
    X ∈ fs := by
  obtain ⟨sc, hts, heval⟩ := run_unpack hrun
  have htcs : tcs = (evalOperators (expandDependencies md) (runItems cl sc) []).1 := by
    rw [heval]
  unfold tcFor at htc
  have htcmem : tc ∈ tcs := List.mem_of_find?_eq_some htc
  have hpred := List.find?_some htc
  have hnameX : tc.name = tcNamePrefix ++ X := by
    simp at hpred
    exact hpred
  rw [htcs] at htcmem
  obtain ⟨l₁, it, l₂, hdec, heq⟩ :=
    evalOperators_tc_mem (expandDependencies md) (runItems cl sc) [] tc htcmem
  have hit : it.1 = X := by
    have hn := evalOperator_name (expandDependencies md)
      (evalOperators (expandDependencies md) l₁ []).2 it
    rw [← heq, hnameX] at hn
    exact (string_append_left_cancel hn).symm
  rcases evalOperator_cases (expandDependencies md)
      (evalOperators (expandDependencies md) l₁ []).2 it with
    ⟨_, he⟩ | ⟨_, _, _, _, _, _, he⟩ | ⟨_, _, _, _, he⟩ | ⟨rec, _, _, _, he⟩
  · rw [heq, he] at hout
    simp at hout
  · rw [heq, he] at hout
    simp at hout
  · rw [heq, he] at hout
    simp at hout
  · have hfs2 : fs = (evalOperators (expandDependencies md) (runItems cl sc) []).2 := by
      rw [heval]
    rw [hfs2, hdec, evalOperators_append, evalOperators_cons]
    apply evalOperators_mono
    rw [he, hit]
    exact List.mem_cons_self _ _

/-- Central cascading-skip lemma: if operator `X` is present in the
cluster and some expanded dependency of `X` ends up in the failure set,
then `X` is skipped with a message naming the lexicographically least
failed dependency (the dependency list is sorted and the evaluator stops
at the first failed entry), and `X` itself is never marked failed. -/
theorem run_dep_skip (md : DepMap) (cl : List (String × OperatorRecord))
    (hcl : (cl.map Prod.fst).Nodup)
    (X : String) (recX : OperatorRecord) (tcs : List TestCase) (fs : List String)
    (hrun : runOperatorChecks md cl = some (tcs, fs))
    (hX : flookup cl X = some recX)
    (d₀ : String) (hd₀ : d₀ ∈ expandedDeps md X) (hd₀f : d₀ ∈ fs) :
    ∃ d, tcFor tcs X = some ⟨tcNamePrefix ++ X, Outcome.skipped (preconMsg d)⟩
      ∧ d ∈ expandedDeps md X ∧ d ∈ fs
      ∧ (∀ d2, d2 ∈ expandedDeps md X → d2 ∈ fs → SLe d d2)
      ∧ X ∉ fs := by
  obtain ⟨sc, hts, heval⟩ := run_unpack hrun
  have hops := coreOps_nodup md
  have hdeps : ∀ op, (lookupDeps (expandDependencies md) op).Nodup :=
    fun op => expandedDeps_nodup md op
  obtain ⟨hperm, hscnd, htopo⟩ := topologicalSort_spec _ _ hops hdeps sc hts
  have hXdom : X ∈ coreOps md := by
    unfold coreOps
    rw [mem_sortStrings]
    exact lookupDeps_key hd₀
  have hXsc : X ∈ sc := hperm.mem_iff.mpr hXdom
  obtain ⟨⟨i, hi⟩, hget⟩ := List.mem_iff_get.mp hXsc
  have hdecomp : sc = sc.take i ++ X :: sc.drop (i + 1) := by
    conv_lhs => rw [← List.take_append_drop i sc]
    rw [List.drop_eq_getElem_cons hi]
    rw [List.get_eq_getElem] at hget
    rw [hget]
  have hdep_take : ∀ d2, d2 ∈ expandedDeps md X → d2 ∈ sc.take i := by
    intro d2 hd2
    have hd2dom : d2 ∈ coreOps md := by
      unfold coreOps
      rw [mem_sortStrings, mem_expand_keys]
      exact Or.inr (expandedDeps_sub_values md hd2)
    exact htopo i hi d2 (by rw [hget]; exact hd2) hd2dom
  have hitems : runItems cl sc
      = ((sc.take i).map fun n => (n, flookup cl n)) ++ (X, some recX)
        :: (((sc.drop (i + 1)).map fun n => (n, flookup cl n))
            ++ (cl.filter (fun p => decide (p.1 ∉ sc))).map (fun p => (p.1, some p.2))) := by
    conv_lhs => rw [hdecomp]
    rw [runItems_core_decomp, hX, ← hdecomp]
  have hnames : ((runItems cl sc).map Prod.fst).Nodup := runItems_names_nodup cl sc hcl hscnd
  have hnames2 : (sc ++ (cl.filter (fun p => decide (p.1 ∉ sc))).map Prod.fst).Nodup := by
    rw [← runItems_names]
    exact hnames
  obtain ⟨_, _, hdisj⟩ := List.nodup_append.mp hnames2
  have hscnodup2 : (sc.take i ++ X :: sc.drop (i + 1)).Nodup := hdecomp ▸ hscnd
  obtain ⟨_, hXdropnd, hdisj2⟩ := List.nodup_append.mp hscnodup2
  have hbefore : ∀ d2, d2 ∈ sc.take i → d2 ∈ fs →
      d2 ∈ (evalOperators (expandDependencies md)
        ((sc.take i).map fun n => (n, flookup cl n)) []).2 := by
    intro d2 htake hdfs
    have hd2fs : d2 ∈ (evalOperators (expandDependencies md) (runItems cl sc) []).2 := by
      rw [heval]
      exact hdfs
    rw [hitems, evalOperators_append] at hd2fs
    rcases evalOperators_failed_sub (expandDependencies md) _ _ _ hd2fs with h | h
    · exact h
    · exfalso
      rw [List.map_cons] at h
      rcases List.mem_cons.mp h with h | h
      · exact hdisj2 ((show d2 = X from h) ▸ htake) (List.mem_cons_self _ _)
      · rw [names_core_part] at h
        rcases List.mem_append.mp h with h | h
        · exact hdisj2 htake (List.mem_cons_of_mem _ h)
        · have hd2sc : d2 ∈ sc := by
            rw [hdecomp]
            exact List.mem_append_left _ htake
          exact hdisj hd2sc h
  have hd₀fP := hbefore d₀ (hdep_take d₀ hd₀) hd₀f
  rcases hfind : (lookupDeps (expandDependencies md) X).find?
      (fun x => decide (x ∈ (evalOperators (expandDependencies md)
        ((sc.take i).map fun n => (n, flookup cl n)) []).2)) with _ | d
  · exfalso
    have hnone := List.find?_eq_none.mp hfind d₀ hd₀
    exact hnone (decide_eq_true hd₀fP)
  · have hdmem : d ∈ lookupDeps (expandDependencies md) X := List.mem_of_find?_eq_some hfind
    have hdfP : d ∈ (evalOperators (expandDependencies md)
        ((sc.take i).map fun n => (n, flookup cl n)) []).2 := by
      have h1 := List.find?_some hfind
      exact of_decide_eq_true h1
    have hstep := evalOperator_skip_dep (expandDependencies md) _ X recX d hfind
    have hfP_sub_fs : ∀ y, y ∈ (evalOperators (expandDependencies md)
        ((sc.take i).map fun n => (n, flookup cl n)) []).2 → y ∈ fs := by
      intro y hy
      have hfseq : fs = (evalOperators (expandDependencies md) (runItems cl sc) []).2 := by
        rw [heval]
      rw [hfseq, hitems, evalOperators_append]
      exact evalOperators_mono (expandDependencies md) _ _ y hy
    have htcfor : tcFor tcs X
        = some ⟨tcNamePrefix ++ X, Outcome.skipped (preconMsg d)⟩ := by
      have h1 : tcs = (evalOperators (expandDependencies md) (runItems cl sc) []).1 := by
        rw [heval]
      have h2 := tcFor_split (expandDependencies md)
        ((sc.take i).map fun n => (n, flookup cl n)) (X, some recX)
        (((sc.drop (i + 1)).map fun n => (n, flookup cl n))
            ++ (cl.filter (fun p => decide (p.1 ∉ sc))).map (fun p => (p.1, some p.2)))
        [] (by rw [← hitems]; exact hnames)
      rw [h1, hitems]
      rw [h2, hstep]
    refine ⟨d, htcfor, hdmem, hfP_sub_fs d hdfP, ?_, ?_⟩
    · intro d2 hd2 hd2fs
      have hd2fP := hbefore d2 (hdep_take d2 hd2) hd2fs
      have hmin := find_min_of_sorted (expandedDeps_sorted md X) hfind
      exact hmin d2 hd2 (decide_eq_true hd2fP)
    · intro hXfs
      have hfseq : fs = (evalOperators (expandDependencies md) (runItems cl sc) []).2 := by
        rw [heval]
      rw [hfseq, hitems, evalOperators_append, evalOperators_cons, hstep] at hXfs
      rcases evalOperators_failed_sub (expandDependencies md) _ _ _ hXfs with h | h
      · rcases evalOperators_failed_sub (expandDependencies md) _ _ _ h with h2 | h2
        · simp at h2
        · have hXtake : X ∈ sc.take i := by
            rw [List.map_map,
              show (Prod.fst ∘ fun n => (n, flookup cl n)) = id from rfl,
              List.map_id] at h2
            exact h2
          exact hdisj2 hXtake (List.mem_cons_self _ _)
      · rw [names_core_part] at h
        rcases List.mem_append.mp h with h | h
        · exact (List.nodup_cons.mp hXdropnd).1 h
        · have hXscmem : X ∈ sc := by
            rw [hdecomp]
            exact List.mem_append_right _ (List.mem_cons_self _ _)
          exact hdisj hXscmem h

/-! ## Auxiliary facts for the claims -/

theorem lookupDeps_nodup_of (m : DepMap) (hm : ∀ p ∈ m, (Prod.snd p).Nodup) :
    ∀ op, (lookupDeps m op).Nodup := by
  intro op
  unfold lookupDeps
  rcases hf : flookup m op with _ | l
  · simp
  · exact hm (op, l) (flookup_mem hf)

theorem machineListErrMsg_ne_empty (e : String) : machineListErrMsg e ≠ "" := by
  unfold machineListErrMsg
  apply append_ne_empty
  apply length_append_left_pos
  decide

theorem notFound_ne_precon (op d : String) : notFoundMsg op ≠ preconMsg d := by
  intro h
  have h1 : (notFoundMsg op).data.head? = some 'O' := by
    unfold notFoundMsg
    apply append_head_char
    apply append_head_char
    rfl
  have h2 : (preconMsg d).data.head? = some 'P' := by
    unfold preconMsg
    apply append_head_char
    apply append_head_char
    rfl
  rw [h, h2] at h1
  simp at h1

theorem string_append_assoc (a b c : String) : (a ++ b) ++ c = a ++ (b ++ c) := by
  apply string_ext
  rw [String.data_append, String.data_append, String.data_append, String.data_append,
    List.append_assoc]

/-! ## The claims -/

/-- C2: for every operator set and expanded dependency map (both given as
duplicate-free lists, since the claim speaks of sets) on which
`topologicalSort` succeeds, the returned sequence is a permutation of the
operator set in which, whenever operator B is a member of A's dependency
list and B is in the operator set, B appears strictly before A. -/
theorem claim_C2 (ops : List String) (deps : DepMap) (hops : ops.Nodup)
    (hdeps : ∀ op, (lookupDeps deps op).Nodup) (sorted : List String)
    (h : topologicalSort ops deps = Except.ok sorted) :
    sorted.Perm ops ∧ ∀ a b, a ∈ ops → b ∈ ops → b ∈ lookupDeps deps a →
      sorted.indexOf b < sorted.indexOf a :=
  ⟨(topologicalSort_spec ops deps hops hdeps sorted h).1,
   topo_indexOf ops deps hops hdeps sorted h⟩

theorem claim_C2_witness :
    (["a", "b", "c"] : List String).Perm ["a", "b", "c"]
    ∧ List.indexOf "a" ["a", "b", "c"] < List.indexOf "c" ["a", "b", "c"] := by
  have h := claim_C2 ["a", "b", "c"] [("b", ["a"]), ("c", ["a", "b"])] (by decide)
    (lookupDeps_nodup_of _ (by decide)) ["a", "b", "c"] rfl
  exact ⟨h.1, h.2 "c" "a" (by decide) (by decide) (by decide)⟩

/-- C3: whenever the dependency relation restricted to the operator set
has a cycle (a nonempty dependency path from some operator back to
itself), `TopologicalSort` returns the cycle error — the `Except.error`
constructor carries no order — and the whole run aborts early, emitting
no per-operator test case (`runOperatorChecks` is `none`). -/
theorem claim_C3 :
    (∀ (ops : List String) (deps : DepMap), ops.Nodup →
      (∀ op, (lookupDeps deps op).Nodup) →
      (∃ a, Relation.TransGen (stepIn ops deps) a a) →
      topologicalSort ops deps = Except.error "dependency graph has a cycle")
    ∧ (∀ (md : DepMap) (cl : List (String × OperatorRecord)),
      (∃ a, Relation.TransGen (stepIn (coreOps md) (expandDependencies md)) a a) →
      runOperatorChecks md cl = none) := by
  constructor
  · exact topologicalSort_cycle
  · intro md cl hcyc
    have herr := topologicalSort_cycle (coreOps md) (expandDependencies md)
      (coreOps_nodup md) (fun op => expandedDeps_nodup md op) hcyc
    simp only [runOperatorChecks]
    rw [herr]

theorem claim_C3_witness :
    topologicalSort ["a", "b"] [("a", ["b"]), ("b", ["a"])]
      = Except.error "dependency graph has a cycle"
    ∧ runOperatorChecks [("a", ["b"]), ("b", ["a"])] [] = none := by
  constructor
  · apply claim_C3.1 ["a", "b"] [("a", ["b"]), ("b", ["a"])] (by decide)
      (lookupDeps_nodup_of _ (by decide))
    have s1 : stepIn ["a", "b"] [("a", ["b"]), ("b", ["a"])] "a" "b" :=
      ⟨by decide, by decide, by decide⟩
    have s2 : stepIn ["a", "b"] [("a", ["b"]), ("b", ["a"])] "b" "a" :=
      ⟨by decide, by decide, by decide⟩
    exact ⟨"a", Relation.TransGen.tail (Relation.TransGen.single s1) s2⟩
  · apply claim_C3.2
    have s1 : stepIn (coreOps [("a", ["b"]), ("b", ["a"])])
        (expandDependencies [("a", ["b"]), ("b", ["a"])]) "a" "a" :=
      ⟨by decide, by decide, by decide⟩
    exact ⟨"a", Relation.TransGen.single s1⟩

/-- C4: whenever A depends on B directly or through any chain of direct
dependencies in the direct map, B is a member of A's expanded set. -/
theorem claim_C4 (md : DepMap) (a b : String)
    (h : Relation.TransGen (depStep md) a b) : b ∈ expandedDeps md a :=
  expandedDeps_complete md h

theorem claim_C4_witness : "c" ∈ expandedDeps [("a", ["b"]), ("b", ["c"])] "a" := by
  have s1 : depStep [("a", ["b"]), ("b", ["c"])] "a" "b" := by
    unfold depStep
    decide
  have s2 : depStep [("a", ["b"]), ("b", ["c"])] "b" "c" := by
    unfold depStep
    decide
  exact claim_C4 _ "a" "c" (Relation.TransGen.tail (Relation.TransGen.single s1) s2)

/-- C5: the key domain of `expandDependencies` is exactly the union of
the input's keys and dependency values, and an operator occurring only as
a dependency value is mapped to the empty expanded set. -/
theorem claim_C5 (md : DepMap) (x : String) :
    (x ∈ keysOf (expandDependencies md) ↔ x ∈ keysOf md ∨ x ∈ valuesOf md)
    ∧ (x ∈ valuesOf md → x ∉ keysOf md → flookup (expandDependencies md) x = some []) := by
  constructor
  · exact mem_expand_keys
  · intro hv hk
    rw [flookup_expand]
    have h1 : x ∈ (keysOf md ++ valuesOf md).dedup := by
      rw [List.mem_dedup, List.mem_append]
      exact Or.inr hv
    rw [if_pos h1, flookup_eq_none.mpr hk]
    rfl

theorem claim_C5_witness :
    ("b" ∈ keysOf (expandDependencies [("a", ["b"])])
      ↔ "b" ∈ keysOf [("a", ["b"])] ∨ "b" ∈ valuesOf [("a", ["b"])])
    ∧ flookup (expandDependencies [("a", ["b"])]) "b" = some [] :=
  ⟨(claim_C5 [("a", ["b"])] "b").1,
   (claim_C5 [("a", ["b"])] "b").2 (by decide) (by decide)⟩

/-- C6: an operator present in the cluster with no failed dependency is
evaluated Passed exactly when its Available status is the string "True"
and its Degraded and Progressing statuses are exactly "False" (a missing
condition reads as ""); any other combination yields a Failed outcome
embedding the three raw status strings and adds the operator to the
failure set. -/
theorem claim_C6 (fd : DepMap) (failed : List String) (opName : String)
    (rec : OperatorRecord)
    (hdep : ∀ d ∈ lookupDeps fd opName, d ∉ failed) :
    ((evalOperator fd failed (opName, some rec)).1.outcome = Outcome.passed
      ↔ (condStatus rec "Available" = "True" ∧ condStatus rec "Degraded" = "False"
          ∧ condStatus rec "Progressing" = "False"))
    ∧ (¬ (condStatus rec "Available" = "True" ∧ condStatus rec "Degraded" = "False"
          ∧ condStatus rec "Progressing" = "False")
        → (evalOperator fd failed (opName, some rec)).1.outcome
            = Outcome.failed (condFailMsg opName (condStatus rec "Available")
              (condStatus rec "Degraded") (condStatus rec "Progressing"))
          ∧ (evalOperator fd failed (opName, some rec)).2 = opName :: failed) := by
  have hfind : (lookupDeps fd opName).find? (fun x => decide (x ∈ failed)) = none := by
    rw [List.find?_eq_none]
    intro x hx
    simp
    exact hdep x hx
  by_cases hcond : condStatus rec "Available" = "True" ∧ condStatus rec "Degraded" = "False"
      ∧ condStatus rec "Progressing" = "False"
  · rw [evalOperator_pass fd failed opName rec hfind hcond]
    exact ⟨by simp [hcond], fun hc => absurd hcond hc⟩
  · rw [evalOperator_fail fd failed opName rec hfind hcond]
    refine ⟨?_, fun _ => ⟨rfl, rfl⟩⟩
    constructor
    · intro h
      simp at h
    · intro h
      exact absurd h hcond

theorem claim_C6_witness :
    ((evalOperator [] []
        ("etcd", some ⟨[⟨"Available", "True"⟩, ⟨"Degraded", "False"⟩,
          ⟨"Progressing", "Unknown"⟩]⟩)).1.outcome
      = Outcome.failed (condFailMsg "etcd" "True" "False" "Unknown"))
    ∧ (evalOperator [] []
        ("etcd", some ⟨[⟨"Available", "True"⟩, ⟨"Degraded", "False"⟩,
          ⟨"Progressing", "Unknown"⟩]⟩)).2 = ["etcd"] := by
  have h := claim_C6 [] [] "etcd"
    ⟨[⟨"Available", "True"⟩, ⟨"Degraded", "False"⟩, ⟨"Progressing", "Unknown"⟩]⟩
    (by intro d hd; exact absurd hd (List.not_mem_nil d))
  have h2 := h.2 (by decide)
  exact ⟨h2.1, h2.2⟩

/-- C7 (amended): the persisted report file's name is the fixed prefix
followed by TWO underscores and the UTC timestamp
(`cluster-health-check__YYYYMMDD-HHMMSS.xml`): `timeSuffix` already
carries a leading underscore and the `"%s_%s.xml"` format inserts a
second one. -/
theorem claim_C7 (ts : String) :
    reportFileName ts = ("cluster-health-check__" ++ ts) ++ ".xml" := by
  have h : reportFileName ts
      = (("cluster-health-check" ++ "_") ++ ("_" ++ ts)) ++ ".xml" := rfl
  rw [h, ← string_append_assoc,
    show (("cluster-health-check" ++ "_") ++ "_" : String) = "cluster-health-check__" from rfl]

/-- C7, counterexample to the claim as stated: the generated name has a
double underscore, not the single-underscore
`cluster-health-check_YYYYMMDD-HHMMSS.xml` shape the claim asserts. -/
theorem claim_C7_counterexample :
    reportFileName "20260101-120000" = "cluster-health-check__20260101-120000.xml"
    ∧ reportFileName "20260101-120000" ≠ "cluster-health-check_20260101-120000.xml" := by
  constructor
  · rfl
  · decide

/-- C9: when the machine-list fetch fails, case 1 of the machine/node
consistency check appends two test cases with the same name: first a
Failed one carrying the fetch error, then a Skipped one with the
no-machines message, because the nil machine list takes the
empty-list branch. -/
theorem claim_C9 (e : String) :
    machineCase1TCs (Except.error e)
      = [⟨machinesTCName, Outcome.failed (machineListErrMsg e)⟩,
         ⟨machinesTCName, Outcome.skipped noMachinesMsg⟩] := by
  have h : machineCase1TCs (Except.error e)
      = [tcMake machinesTCName (machineListErrMsg e) ""]
        ++ [tcMake machinesTCName "" noMachinesMsg] := rfl
  rw [h, tcMake_fail _ _ _ (machineListErrMsg_ne_empty e),
    tcMake_skip _ _ (by decide)]
  rfl

/-- C1 (amended): given a dependency chain A←B←C (C depends on B and B on
A, directly or transitively) where A, B and C are all present in the
cluster and A's test case is Failed, both B and C receive a Skipped
outcome whose message names a failed precondition operator (an expanded
dependency whose own test case is Failed), and neither B nor C is added
to the failure set; their test cases are the Skipped ones, so neither is
reported Failed.  (The claim as stated omits the presence of B and C; a
chain operator absent from the cluster is skipped with the not-found
message instead, see the counterexample.) -/
theorem claim_C1 (md : DepMap) (cl : List (String × OperatorRecord))
    (hcl : (cl.map Prod.fst).Nodup)
    (A B C : String) (recA recB recC : OperatorRecord)
    (hBA : Relation.TransGen (depStep md) B A)
    (hCB : Relation.TransGen (depStep md) C B)
    (_hA : flookup cl A = some recA) (hB : flookup cl B = some recB)
    (hC : flookup cl C = some recC)
    (tcs : List TestCase) (fs : List String)
    (hrun : runOperatorChecks md cl = some (tcs, fs))
    (tcA : TestCase) (msgA : String)
    (htcA : tcFor tcs A = some tcA) (houtA : tcA.outcome = Outcome.failed msgA) :
    (∃ dB msgB, tcFor tcs B = some ⟨tcNamePrefix ++ B, Outcome.skipped (preconMsg dB)⟩
      ∧ dB ∈ expandedDeps md B
      ∧ tcFor tcs dB = some ⟨tcNamePrefix ++ dB, Outcome.failed msgB⟩)
    ∧ (∃ dC msgC, tcFor tcs C = some ⟨tcNamePrefix ++ C, Outcome.skipped (preconMsg dC)⟩
      ∧ dC ∈ expandedDeps md C
      ∧ tcFor tcs dC = some ⟨tcNamePrefix ++ dC, Outcome.failed msgC⟩)
    ∧ B ∉ fs ∧ C ∉ fs := by
  have hAfs : A ∈ fs := run_failed_tc_mem md cl tcs fs hrun A tcA msgA htcA houtA
  have hAdepB : A ∈ expandedDeps md B := expandedDeps_complete md hBA
  have hAdepC : A ∈ expandedDeps md C := expandedDeps_complete md (hCB.trans hBA)
  obtain ⟨dB, htcB, hdBdep, hdBfs, _, hBfs⟩ :=
    run_dep_skip md cl hcl B recB tcs fs hrun hB A hAdepB hAfs
  obtain ⟨dC, htcC, hdCdep, hdCfs, _, hCfs⟩ :=
    run_dep_skip md cl hcl C recC tcs fs hrun hC A hAdepC hAfs
  obtain ⟨msgB, hfB⟩ := run_fs_tc_failed md cl hcl tcs fs hrun dB hdBfs
  obtain ⟨msgC, hfC⟩ := run_fs_tc_failed md cl hcl tcs fs hrun dC hdCfs
  exact ⟨⟨dB, msgB, htcB, hdBdep, hfB⟩, ⟨dC, msgC, htcC, hdCdep, hfC⟩, hBfs, hCfs⟩

/-- C1, counterexample to the claim as stated: in the chain a←b←c with
only `a` (Failed) and `c` present, operator `b` is Skipped with the
not-found message, which does not name a failed precondition operator. -/
theorem claim_C1_counterexample :
    ∃ tcs fs tcA tcB,
      runOperatorChecks [("b", ["a"]), ("c", ["b"])]
        [("a", ⟨[]⟩),
         ("c", ⟨[⟨"Available", "True"⟩, ⟨"Degraded", "False"⟩, ⟨"Progressing", "False"⟩]⟩)]
        = some (tcs, fs)
      ∧ tcFor tcs "a" = some tcA ∧ tcA.outcome = Outcome.failed (condFailMsg "a" "" "" "")
      ∧ tcFor tcs "b" = some tcB
      ∧ tcB.outcome = Outcome.skipped (notFoundMsg "b")
      ∧ ¬ ∃ d, tcB.outcome = Outcome.skipped (preconMsg d) := by
  refine ⟨_, _, _, _, rfl, rfl, by decide, rfl, by decide, ?_⟩
  intro hex
  obtain ⟨d, hd⟩ := hex
  have h1 : Outcome.skipped (notFoundMsg "b") = Outcome.skipped (preconMsg d) := by
    rw [← hd]
    decide
  have h2 : notFoundMsg "b" = preconMsg d := by
    injection h1
  exact notFound_ne_precon "b" d h2

theorem claim_C1_witness :
    ∃ tcs fs,
      runOperatorChecks [("b", ["a"]), ("c", ["b"])]
        [("a", ⟨[]⟩),
         ("b", ⟨[⟨"Available", "True"⟩, ⟨"Degraded", "False"⟩, ⟨"Progressing", "False"⟩]⟩),
         ("c", ⟨[⟨"Available", "True"⟩, ⟨"Degraded", "False"⟩, ⟨"Progressing", "False"⟩]⟩)]
        = some (tcs, fs)
      ∧ ((∃ dB msgB, tcFor tcs "b" = some ⟨tcNamePrefix ++ "b", Outcome.skipped (preconMsg dB)⟩
          ∧ dB ∈ expandedDeps [("b", ["a"]), ("c", ["b"])] "b"
          ∧ tcFor tcs dB = some ⟨tcNamePrefix ++ dB, Outcome.failed msgB⟩)
        ∧ (∃ dC msgC, tcFor tcs "c" = some ⟨tcNamePrefix ++ "c", Outcome.skipped (preconMsg dC)⟩
          ∧ dC ∈ expandedDeps [("b", ["a"]), ("c", ["b"])] "c"
          ∧ tcFor tcs dC = some ⟨tcNamePrefix ++ dC, Outcome.failed msgC⟩)
        ∧ "b" ∉ fs ∧ "c" ∉ fs) := by
  refine ⟨_, _, rfl, ?_⟩
  have s1 : depStep [("b", ["a"]), ("c", ["b"])] "b" "a" := by
    unfold depStep
    decide
  have s2 : depStep [("b", ["a"]), ("c", ["b"])] "c" "b" := by
    unfold depStep
    decide
  exact claim_C1 [("b", ["a"]), ("c", ["b"])]
    [("a", ⟨[]⟩),
     ("b", ⟨[⟨"Available", "True"⟩, ⟨"Degraded", "False"⟩, ⟨"Progressing", "False"⟩]⟩),
     ("c", ⟨[⟨"Available", "True"⟩, ⟨"Degraded", "False"⟩, ⟨"Progressing", "False"⟩]⟩)]
    (by decide) "a" "b" "c"
    ⟨[]⟩ ⟨[⟨"Available", "True"⟩, ⟨"Degraded", "False"⟩, ⟨"Progressing", "False"⟩]⟩
    ⟨[⟨"Available", "True"⟩, ⟨"Degraded", "False"⟩, ⟨"Progressing", "False"⟩]⟩
    (Relation.TransGen.single s1) (Relation.TransGen.single s2)
    rfl rfl rfl _ _ rfl
    ⟨tcNamePrefix ++ "a", Outcome.failed (condFailMsg "a" "" "" "")⟩
    (condFailMsg "a" "" "" "") (by decide) rfl

/-- C8 (amended): an extra operator (present in the cluster but outside
the dependency-map domain) that fails its condition check IS added to the
shared `failedOperators` set, contrary to the claim as stated; however it
can never cause another operator to be skipped, because every
dependency-skip message names an operator drawn from the dependency map's
value set, which an extra operator is not a member of. -/
theorem claim_C8 (md : DepMap) (cl : List (String × OperatorRecord))
    (tcs : List TestCase) (fs : List String)
    (hrun : runOperatorChecks md cl = some (tcs, fs)) :
    ∀ tc ∈ tcs, ∀ m, tc.outcome = Outcome.skipped m →
      (∃ op, m = notFoundMsg op) ∨ ∃ d, m = preconMsg d ∧ d ∈ valuesOf md := by
  obtain ⟨sc, _, heval⟩ := run_unpack hrun
  intro tc htc m hm
  have htcs : tc ∈ (evalOperators (expandDependencies md) (runItems cl sc) []).1 := by
    rw [heval]
    exact htc
  obtain ⟨l₁, it, l₂, _, heq⟩ :=
    evalOperators_tc_mem (expandDependencies md) (runItems cl sc) [] tc htcs
  rcases evalOperator_cases (expandDependencies md)
      (evalOperators (expandDependencies md) l₁ []).2 it with
    ⟨_, he⟩ | ⟨_, d, _, _, hdmem, _, he⟩ | ⟨_, _, _, _, he⟩ | ⟨_, _, _, _, he⟩
  · rw [heq, he] at hm
    simp at hm
    exact Or.inl ⟨it.1, hm.symm⟩
  · rw [heq, he] at hm
    simp at hm
    exact Or.inr ⟨d, hm.symm, expandedDeps_sub_values md hdmem⟩
  · rw [heq, he] at hm
    simp at hm
  · rw [heq, he] at hm
    simp at hm

/-- C8, counterexample to the claim as stated: the extra operator "foo"
(present in the cluster, absent from the dependency-map domain) fails its
condition check and IS added to the failure set. -/
theorem claim_C8_counterexample :
    ∃ tcs fs,
      runOperatorChecks [("a", [])]
        [("a", ⟨[⟨"Available", "True"⟩, ⟨"Degraded", "False"⟩, ⟨"Progressing", "False"⟩]⟩),
         ("foo", ⟨[]⟩)]
        = some (tcs, fs)
      ∧ "foo" ∉ keysOf [("a", ([] : List String))]
      ∧ "foo" ∉ valuesOf [("a", ([] : List String))]
      ∧ "foo" ∈ fs := by
  refine ⟨_, _, rfl, by decide, by decide, by decide⟩

theorem claim_C8_witness :
    (∃ op, notFoundMsg "b" = notFoundMsg op)
    ∨ ∃ d, notFoundMsg "b" = preconMsg d ∧ d ∈ valuesOf [("a", ["b"])] := by
  refine claim_C8 [("a", ["b"])] [] _ _ rfl
    ⟨tcNamePrefix ++ "b", Outcome.skipped (notFoundMsg "b")⟩ ?_ (notFoundMsg "b") rfl
  decide

/-- C10: whenever operator X is present in the cluster and some member of
its expanded dependency set is in the final failure set, X's test case is
Skipped naming a dependency d that is the lexicographically smallest
failed member of X's expanded dependency set (`SLe` is the code-point
lexicographic order used to sort the expanded lists): the expanded list
is sorted before the evaluator iterates it and the evaluator stops at the
first failed entry, so the named dependency is a deterministic function
of the input. -/
theorem claim_C10 (md : DepMap) (cl : List (String × OperatorRecord))
    (hcl : (cl.map Prod.fst).Nodup)
    (X : String) (recX : OperatorRecord) (tcs : List TestCase) (fs : List String)
    (hrun : runOperatorChecks md cl = some (tcs, fs))
    (hX : flookup cl X = some recX)
    (hfail : ∃ d0, d0 ∈ expandedDeps md X ∧ d0 ∈ fs) :
    ∃ d, tcFor tcs X = some ⟨tcNamePrefix ++ X, Outcome.skipped (preconMsg d)⟩
      ∧ d ∈ expandedDeps md X ∧ d ∈ fs
      ∧ ∀ d2, d2 ∈ expandedDeps md X → d2 ∈ fs → SLe d d2 := by
  obtain ⟨d0, h1, h2⟩ := hfail
  obtain ⟨d, ha, hb, hc, hd, _⟩ := run_dep_skip md cl hcl X recX tcs fs hrun hX d0 h1 h2
  exact ⟨d, ha, hb, hc, hd⟩

theorem claim_C10_witness :
    ∃ tcs fs,
      runOperatorChecks [("b", ["a"]), ("c", ["b"])]
        [("a", ⟨[]⟩),
         ("b", ⟨[⟨"Available", "True"⟩, ⟨"Degraded", "False"⟩, ⟨"Progressing", "False"⟩]⟩),
         ("c", ⟨[⟨"Available", "True"⟩, ⟨"Degraded", "False"⟩, ⟨"Progressing", "False"⟩]⟩)]
        = some (tcs, fs)
      ∧ ∃ d, tcFor tcs "c" = some ⟨tcNamePrefix ++ "c", Outcome.skipped (preconMsg d)⟩
        ∧ d ∈ expandedDeps [("b", ["a"]), ("c", ["b"])] "c" ∧ d ∈ fs
        ∧ ∀ d2, d2 ∈ expandedDeps [("b", ["a"]), ("c", ["b"])] "c" → d2 ∈ fs → SLe d d2 := by
  refine ⟨_, _, rfl, ?_⟩
  exact claim_C10 [("b", ["a"]), ("c", ["b"])]
    [("a", ⟨[]⟩),
     ("b", ⟨[⟨"Available", "True"⟩, ⟨"Degraded", "False"⟩, ⟨"Progressing", "False"⟩]⟩),
     ("c", ⟨[⟨"Available", "True"⟩, ⟨"Degraded", "False"⟩, ⟨"Progressing", "False"⟩]⟩)]
    (by decide) "c"
    ⟨[⟨"Available", "True"⟩, ⟨"Degraded", "False"⟩, ⟨"Progressing", "False"⟩]⟩
    _ _ rfl rfl ⟨"a", by decide, by decide⟩

theorem claim_C7_witness :
    reportFileName "20260101-120000" = ("cluster-health-check__" ++ "20260101-120000") ++ ".xml" :=
  claim_C7 "20260101-120000"

theorem claim_C9_witness :
    machineCase1TCs (Except.error "boom")
      = [⟨machinesTCName, Outcome.failed (machineListErrMsg "boom")⟩,
         ⟨machinesTCName, Outcome.skipped noMachinesMsg⟩] :=
  claim_C9 "boom"

end HealthCheck
